import Mathlib

/-!
# Verification of the spider-cli crawl-orchestration core

A shallow embedding of the URL canonicalizer (`src/url_parser/mod.rs`), the
durable result store (`src/state/mod.rs`), the dedup cache
(`src/features/cache.rs`), the proxy rotator (`src/features/proxy.rs`) and the
orchestrator event loop (`src/crawler/mod.rs`), with theorems settling the
specification's claims about them.

Rust `&str` values are modelled as `List Char`; byte indices coincide with
character indices on the ASCII inputs this development evaluates.  The external
`url` crate is modelled by `modelUrlParse`, accurate for ASCII inputs (see its
doc comment).  A Rust panic (out-of-bounds slice) is modelled explicitly as the
`crash` outcome of `fromStr`, since `normalize_url` only catches `Err` values.
-/

set_option maxRecDepth 40000

namespace Spider

abbrev Str := List Char

def str (s : String) : Str := s.data

/-! ## Character classes and elementary string operations -/

/-- ASCII lowercase of one character; models Rust `to_lowercase` on the ASCII
    range (the only range exercised here). -/
def lowerChar (c : Char) : Char :=
  if 65 ≤ c.toNat ∧ c.toNat ≤ 90 then Char.ofNat (c.toNat + 32) else c

def toLower (s : Str) : Str := s.map lowerChar

def isAlphaCh (c : Char) : Bool :=
  (65 ≤ c.toNat ∧ c.toNat ≤ 90) ∨ (97 ≤ c.toNat ∧ c.toNat ≤ 122)

def isDigitCh (c : Char) : Bool := 48 ≤ c.toNat ∧ c.toNat ≤ 57

def schemeChar (c : Char) : Bool :=
  isAlphaCh c || isDigitCh c || c = '+' || c = '-' || c = '.'

/-- Characters of a plain lowercase ASCII hostname. -/
def hostChar (c : Char) : Bool :=
  (97 ≤ c.toNat ∧ c.toNat ≤ 122) || isDigitCh c || c = '.' || c = '-' || c = '_'

/-- Model of Rust `str::is_prefix`-style matching used by `str::find`. -/
def isPref : Str → Str → Bool
  | [], _ => true
  | _ :: _, [] => false
  | a :: as, b :: bs => if a = b then isPref as bs else false

/-- Model of Rust `str::find` for a substring pattern: index of the first
    occurrence (`find("")` is `Some(0)`, as in Rust). -/
def findSub (needle : Str) : Str → Option Nat
  | [] => if isPref needle [] then some 0 else none
  | c :: t => if isPref needle (c :: t) then some 0 else (findSub needle t).map (· + 1)

/-- Model of Rust `str::find` for a single character. -/
def findCh (c : Char) : Str → Option Nat
  | [] => none
  | d :: t => if d = c then some 0 else (findCh c t).map (· + 1)

/-- Model of Rust `str::rfind` for a single character. -/
def rfindCh (c : Char) (s : Str) : Option Nat :=
  (findCh c s.reverse).map (fun i => s.length - 1 - i)

/-- Rust slice `&s[i..j]`; Rust panics unless `i ≤ j ≤ s.len()`, which callers
    must check (`fromStr` models the panic explicitly). -/
def sliceStr (s : Str) (i j : Nat) : Str := (s.drop i).take (j - i)

/-- Model of Rust `str::split(sep)`: the list of parts (never empty). -/
def splitOnCh (sep : Char) : Str → List Str
  | [] => [[]]
  | c :: t =>
    let r := splitOnCh sep t
    if c = sep then [] :: r
    else
      match r with
      | [] => [[c]]
      | p :: ps => (c :: p) :: ps

/-! ## Model of the external `url` crate (`url::Url::parse`)

`UrlRef::from_str` consumes exactly two outputs of `Url::parse`: the scheme
(always lowercased by the crate) and the host string (lowercased for special
schemes).  `modelUrlParse` models that interface: `some (scheme, host)` on
success, `none` on a parse error.  It follows the WHATWG algorithm the crate
implements, restricted to ASCII input with hosts over `[a-z0-9._-]` (hosts
outside that set are rejected by the model; no theorem below depends on such
inputs). -/

def specialScheme (s : Str) : Bool :=
  s = str "http" || s = str "https" || s = str "ws" || s = str "wss" ||
  s = str "ftp" || s = str "file"

def isSlashCh (c : Char) : Bool := c = '/' || c = '\\'

/-- Authority terminators for special schemes. -/
def authEndSp (c : Char) : Bool := c = '/' || c = '\\' || c = '?' || c = '#'

/-- Authority terminators for non-special schemes. -/
def authEndNs (c : Char) : Bool := c = '/' || c = '?' || c = '#'

/-- Parse an authority substring: host is after the last `@` and before the
    first `:`; a port must be all digits; returns `none` on error. -/
def parseAuthority (auth : Str) (special : Bool) : Option Str :=
  let hostPort :=
    match rfindCh '@' auth with
    | some i => auth.drop (i + 1)
    | none => auth
  let host :=
    match findCh ':' hostPort with
    | some i => hostPort.take i
    | none => hostPort
  let port :=
    match findCh ':' hostPort with
    | some i => hostPort.drop (i + 1)
    | none => []
  if port.all isDigitCh then
    let h := if special then toLower host else host
    if h.all hostChar then some h else none
  else none

def modelUrlParse (u : Str) : Option (Str × Str) :=
  match findCh ':' u with
  | none => none
  | some i =>
    let schemeRaw := u.take i
    if schemeRaw ≠ [] ∧ isAlphaCh schemeRaw.headI ∧ schemeRaw.all schemeChar then
      let scheme := toLower schemeRaw
      let rest := u.drop (i + 1)
      if specialScheme scheme then
        let afterSlashes := rest.dropWhile isSlashCh
        let auth := afterSlashes.takeWhile (fun c => ! authEndSp c)
        match parseAuthority auth true with
        | none => none
        | some h =>
          if h = [] ∧ scheme ≠ str "file" then none else some (scheme, h)
      else
        if rest.take 2 = str "//" then
          let auth := (rest.drop 2).takeWhile (fun c => ! authEndNs c)
          match parseAuthority auth false with
          | none => none
          | some h => some (scheme, h)
        else some (scheme, [])
    else none

/-! ## `UrlRef` and `from_str` (src/url_parser/mod.rs lines 17-135) -/

/-- Zero-copy URL components (`UrlRef`); the borrowed slices are modelled as
    their own character lists. -/
structure UrlRef where
  full_url : Str
  protocol : Str
  subdomain : Str
  domain : Str
  hostname : Str
  path : Str
  query : Str
  fragment : Str
  depth : Nat
deriving DecidableEq, Repr

/-- Outcome of `UrlRef::from_str`: success, an `anyhow` error (`err`), or a
    Rust panic from an out-of-bounds slice (`crash`). -/
inductive FromStrResult where
  | ok (r : UrlRef)
  | err
  | crash
deriving DecidableEq, Repr

/-- `UrlRef::parse_domain` (lines 114-135): rightmost-two-labels split. -/
def parseDomain (hostname : Str) : Str × Str :=
  match (splitOnCh '.' hostname).length with
  | 0 => ([], [])
  | 1 => ([], hostname)
  | 2 => ([], hostname)
  | _ =>
    match rfindCh '.' hostname with
    | some pos =>
      match rfindCh '.' (hostname.take pos) with
      | some prevPos => (hostname.take prevPos, hostname.drop (prevPos + 1))
      | none => ([], hostname)
    | none => ([], hostname)

/-- Path depth: count of non-empty `/`-separated segments (line 93). -/
def depthOf (p : Str) : Nat := ((splitOnCh '/' p).filter (· ≠ [])).length

/-- `UrlRef::from_str` (lines 41-106).  The `find` of each lowercased component
    runs over the original string; a failed `find` is an `anyhow` error, and a
    path slice whose start exceeds its end is a Rust panic (`crash`). -/
def fromStr (u : Str) : FromStrResult :=
  match modelUrlParse u with
  | none => .err
  | some (schemeStr, hostStr) =>
    let protoRes : Option Str :=
      if schemeStr ≠ [] then
        match findSub schemeStr u with
        | none => none
        | some i => some (sliceStr u i (i + schemeStr.length))
      else some []
    match protoRes with
    | none => .err
    | some protocol =>
      let hostRes : Option (Str × Option Nat) :=
        if hostStr ≠ [] then
          match findSub hostStr u with
          | none => none
          | some i => some (sliceStr u i (i + hostStr.length), some i)
        else some ([], none)
      match hostRes with
      | none => .err
      | some (hostname, hostIdx) =>
        let sd := parseDomain hostname
        let pathStart :=
          match hostIdx with
          | some i => i + hostname.length
          | none => ((findCh ':' u).getD 0) + 1
        let queryStart := (findCh '?' u).getD u.length
        let fragmentStart := (findCh '#' u).getD u.length
        let endOfPath := min queryStart fragmentStart
        if pathStart > endOfPath then .crash
        else
          let path := sliceStr u pathStart endOfPath
          let query :=
            if queryStart < fragmentStart then sliceStr u queryStart fragmentStart else []
          let fragment :=
            if fragmentStart < u.length then sliceStr u fragmentStart u.length else []
          .ok ⟨u, protocol, sd.1, sd.2, hostname, path, query, fragment, depthOf path⟩

/-! ## `UrlRef::normalize` (lines 138-187) and `normalize_url` (lines 190-195) -/

/-- One `key[=value]` query parameter, split at the first `=` (lines 156-162). -/
def parsePair (pair : Str) : Str × Str :=
  match findCh '=' pair with
  | some pos => (pair.take pos, pair.drop (pos + 1))
  | none => (pair, [])

/-- The query-parameter list of a query string: `query[1..]` split on `&`
    (lines 153-162). -/
def qparams (q : Str) : List (Str × Str) :=
  (splitOnCh '&' (q.drop 1)).map parsePair

/-- Lexicographic strict order on char lists: Rust `str::cmp` byte order,
    restricted to ASCII where byte order and char order agree. -/
def strLt : Str → Str → Bool
  | [], [] => false
  | [], _ :: _ => true
  | _ :: _, [] => false
  | a :: as, b :: bs => if a = b then strLt as bs else decide (a < b)

/-- Stable insertion of one pair in key order; together with `sortPairs` this
    models Rust's stable `sort_by(|a, b| a.0.cmp(b.0))` (line 163). -/
def insertPair (x : Str × Str) : List (Str × Str) → List (Str × Str)
  | [] => [x]
  | y :: ys => if strLt y.1 x.1 then y :: insertPair x ys else x :: y :: ys

def sortPairs : List (Str × Str) → List (Str × Str)
  | [] => []
  | x :: xs => insertPair x (sortPairs xs)

/-- Reassembly of one parameter: a bare key when the value is empty (lines
    171-175). -/
def renderPair (p : Str × Str) : Str := if p.2 = [] then p.1 else p.1 ++ '=' :: p.2

/-- Reassembly of the sorted parameters with `&` (lines 166-177). -/
def joinParams : List (Str × Str) → Str
  | [] => []
  | [p] => renderPair p
  | p :: ps => renderPair p ++ '&' :: joinParams ps

/-- Path normalization of `UrlRef::normalize` (lines 139-149): an empty path
    becomes `/`; one trailing slash is trimmed from a non-root path. -/
def normPath (p : Str) : Str :=
  let path := if p = [] then str "/" else p
  if path.length > 1 ∧ path.getLast? = some '/' then path.dropLast else path

/-- Query normalization of `UrlRef::normalize` (lines 152-178): parameters
    sorted by key (stably) and reassembled; empty or `?`-only queries vanish. -/
def normQuery (q : Str) : Str :=
  if q ≠ [] ∧ q.length > 1 then
    if sortPairs (qparams q) ≠ [] then '?' :: joinParams (sortPairs (qparams q)) else []
  else []

/-- `UrlRef::normalize` (lines 138-187): lowercased scheme and host, normalized
    path and query, fragment dropped. -/
def UrlRef.normalize (r : UrlRef) : Str :=
  toLower r.protocol ++ str "://" ++ toLower r.hostname ++ normPath r.path ++ normQuery r.query

/-- `normalize_url` (lines 190-195): the normalized form on success, the input
    unchanged on a parse error; `none` models a Rust panic escaping the call. -/
def normalizeUrl (u : Str) : Option Str :=
  match fromStr u with
  | .ok r => some r.normalize
  | .err => some u
  | .crash => none

end Spider

namespace Spider

/-! ## Hierarchy tree and URL collection (src/url_parser/mod.rs lines 197-356)

The Rust `HashMap`s are modelled as association lists in insertion order; the
claims below only inspect key membership and entry counts, which are
order-insensitive. -/

inductive NodeType where
  | Domain | Folder | File
deriving DecidableEq, Repr

/-- `TreeNode` (lines 198-216). -/
inductive TreeNode where
  | mk (name : Str) (node_type : NodeType) (children : List (Str × TreeNode))
      (urls : List UrlRef)

def TreeNode.name : TreeNode → Str | .mk n _ _ _ => n
def TreeNode.node_type : TreeNode → NodeType | .mk _ t _ _ => t
def TreeNode.children : TreeNode → List (Str × TreeNode) | .mk _ _ c _ => c
def TreeNode.urls : TreeNode → List UrlRef | .mk _ _ _ u => u

def TreeNode.new (name : Str) (t : NodeType) : TreeNode := .mk name t [] []

def assocLookup {α : Type} (l : List (Str × α)) (k : Str) : Option α :=
  match l with
  | [] => none
  | (k', v) :: t => if k' = k then some v else assocLookup t k

/-- Replace the value at `k` in place when present, else append `(k, v)`;
    models `HashMap` insertion for an association list. -/
def assocUpsert {α : Type} (l : List (Str × α)) (k : Str) (v : α) : List (Str × α) :=
  match l with
  | [] => [(k, v)]
  | (k', v') :: t => if k' = k then (k, v) :: t else (k', v') :: assocUpsert t k v

/-- `UrlRef::path_segments` (lines 109-111). -/
def UrlRef.path_segments (r : UrlRef) : List Str :=
  (splitOnCh '/' r.path).filter (· ≠ [])

/-- The segment walk of `TreeNode::insert` (lines 219-239): `or_insert` a child
    per segment (`File` for the last segment, `Folder` otherwise, keeping an
    existing node as is), then push the URL at the final node. -/
def TreeNode.insertSegs : TreeNode → List Str → UrlRef → TreeNode
  | .mk n t ch us, [], u => .mk n t ch (us ++ [u])
  | .mk n t ch us, seg :: rest, u =>
    let ntype := if rest = [] then NodeType.File else NodeType.Folder
    let child := (assocLookup ch seg).getD (TreeNode.new seg ntype)
    .mk n t (assocUpsert ch seg (child.insertSegs rest u)) us

def TreeNode.insert (t : TreeNode) (u : UrlRef) : TreeNode :=
  t.insertSegs u.path_segments u

/-- `UrlCollection` (lines 292-298). -/
structure UrlCollection where
  unique_urls : List (Str × UrlRef)
  hierarchies : List (Str × TreeNode)

def UrlCollection.new : UrlCollection := ⟨[], []⟩

/-- `UrlCollection::add` (lines 305-319): insert only when the normalized key
    is absent, creating the per-host root lazily; always returns `Ok(())`,
    modelled by `Except.ok`. -/
def UrlCollection.add (c : UrlCollection) (u : UrlRef) : Except Unit UrlCollection :=
  let normalized := u.normalize
  if (assocLookup c.unique_urls normalized).isSome then .ok c
  else
    let root := (assocLookup c.hierarchies u.hostname).getD (TreeNode.new u.hostname .Domain)
    .ok { unique_urls := c.unique_urls ++ [(normalized, u)],
          hierarchies := assocUpsert c.hierarchies u.hostname (root.insert u) }

/-- `UrlCollection::unique_count` (lines 321-323). -/
def UrlCollection.unique_count (c : UrlCollection) : Nat := c.unique_urls.length

/-! ## Durable state store (src/state/mod.rs)

Only the `results` table backs the claims below.  Its schema (lines 60-72) has
columns `crawl_id`, `url`, `data` and the constraint `UNIQUE(crawl_id, url)`;
the table is modelled as a row list in insertion order.  Database I/O errors
are outside the model, so store operations always return `.ok`. -/

/-- The extracted field map persisted as the `data` column (a JSON object of
    field name to extracted value). -/
abbrev FieldMap := List (Str × Str)

structure ResultRow where
  crawl_id : Int
  url : Str
  data : FieldMap
deriving DecidableEq, Repr

abbrev ResultsTable := List ResultRow

inductive StoreErr where
  | ioErr
deriving DecidableEq, Repr

/-- Whether a row for `(crawl_id, url)` exists — the `UNIQUE(crawl_id, url)`
    lookup `INSERT OR IGNORE` performs. -/
def hasRow (t : ResultsTable) (c : Int) (u : Str) : Bool :=
  t.any (fun r => r.crawl_id = c ∧ r.url = u)

/-- `StateManager::save_result` (lines 126-140): `INSERT OR IGNORE INTO results`
    — a duplicate `(crawl_id, url)` pair leaves the table unchanged and still
    returns `Ok(())`. -/
def save_result (t : ResultsTable) (c : Int) (u : Str) (d : FieldMap) :
    Except StoreErr ResultsTable :=
  .ok (if hasRow t c u then t else t ++ [⟨c, u, d⟩])

/-- `StateManager::get_visited_urls` (lines 77-83): all result URLs of a crawl. -/
def get_visited_urls (t : ResultsTable) (c : Int) : List Str :=
  (t.filter (fun r => r.crawl_id = c)).map (·.url)

/-! ## Dedup cache (src/features/cache.rs)

The `HashSet<String>` is modelled as a duplicate-free list. -/

abbrev Cache := List Str

/-- `CacheManager::cache` (lines 20-23): set insertion. -/
def cacheInsert (cch : Cache) (k : Str) : Cache := if k ∈ cch then cch else cch ++ [k]

/-- `CacheManager::extend` (lines 25-28): bulk set insertion. -/
def cacheExtend (cch : Cache) (ks : List Str) : Cache := ks.foldl cacheInsert cch

/-- `CacheManager::is_cached` (lines 15-18). -/
def is_cached (cch : Cache) (k : Str) : Bool := k ∈ cch

/-! ## Proxy rotator (src/features/proxy.rs)

The `AtomicUsize` cursor is modelled as a natural number below `2^64` with the
wrapping `fetch_add(1)` of the source; this development treats the sequential
behavior (the claims' concurrent "atomically" aspect is outside the model). -/

structure ProxyManager where
  proxies : List Str
  current : Nat
deriving DecidableEq, Repr

/-- `ProxyManager::new` (lines 9-14). -/
def ProxyManager.new (ps : List Str) : ProxyManager := ⟨ps, 0⟩

/-- `ProxyManager::get_next` (lines 16-22): `None` on an empty pool, else the
    endpoint at `cursor % len` with the cursor advanced (wrapping at `2^64`). -/
def ProxyManager.get_next (pm : ProxyManager) : Option Str × ProxyManager :=
  if pm.proxies = [] then (none, pm)
  else
    (some (pm.proxies.getD (pm.current % pm.proxies.length) []),
     ⟨pm.proxies, (pm.current + 1) % 2 ^ 64⟩)

/-- The outputs of `n` successive `get_next` calls. -/
def getNextTrace (pm : ProxyManager) : Nat → List (Option Str)
  | 0 => []
  | n + 1 =>
    let (o, pm') := pm.get_next
    o :: getNextTrace pm' n

/-! ## Orchestrator event loop (src/crawler/mod.rs lines 119-173)

The external fetcher is modelled as the list of `(url, html)` events it
delivers, and the external `ChadSelect` extractor as a function parameter.
The observable run state is the persisted results, the dedup cache and the
status-sink emissions in order. -/

/-- Selector prefixing (lines 137-144): `css:`/`xpath:`/`regex:` prefixes pass
    through; anything else gets `css:` prepended. -/
def finalSelector (sel : Str) : Str :=
  if isPref (str "css:") sel ∨ isPref (str "xpath:") sel ∨ isPref (str "regex:") sel
  then sel else str "css:" ++ sel

/-- The extraction loop (lines 135-152): for each configured (name, selector)
    pair query the extractor with the final selector; keep only non-empty
    values. -/
def buildData (extract : Str → Str → Str) (html : Str) :
    List (Str × Str) → FieldMap
  | [] => []
  | (name, sel) :: rest =>
    let val := extract html (finalSelector sel)
    let m := buildData extract html rest
    if val ≠ [] then (name, val) :: m else m

structure CrawlState where
  results : ResultsTable
  cache : Cache
  emitted : List Str
deriving DecidableEq, Repr

/-- One iteration of the event loop for a received `(url, html)` event
    (lines 119-173): normalize (the total `normalize_url`, no error branch),
    skip if cached, extract, persist, cache, emit.  `none` models a Rust panic
    escaping `normalize_url`; `hasSink` models `status_tx.is_some()`. -/
def processEvent (crawlId : Int) (selectors : List (Str × Str))
    (extract : Str → Str → Str) (hasSink : Bool) (st : CrawlState)
    (ev : Str × Str) : Option CrawlState :=
  match normalizeUrl ev.1 with
  | none => none
  | some url =>
    if is_cached st.cache url then some st
    else
      let data := buildData extract ev.2 selectors
      match save_result st.results crawlId url data with
      | .error _ => none
      | .ok results' =>
        some { results := results',
               cache := cacheInsert st.cache url,
               emitted := if hasSink then st.emitted ++ [url] else st.emitted }

/-- The event loop over the fetcher's event list. -/
def runEvents (crawlId : Int) (selectors : List (Str × Str))
    (extract : Str → Str → Str) (hasSink : Bool) (st : CrawlState)
    (evs : List (Str × Str)) : Option CrawlState :=
  evs.foldl
    (fun acc ev => acc.bind (fun s => processEvent crawlId selectors extract hasSink s ev))
    (some st)

/-- Cache seeding at orchestrator startup (crawler lines 82-84): a fresh cache
    extended with the crawl's persisted result URLs. -/
def seedCache (t : ResultsTable) (c : Int) : Cache :=
  cacheExtend [] (get_visited_urls t c)

end Spider

namespace Spider

/-! ## Derived predicates and concrete fixtures -/

/-- Lowercase ASCII letter. -/
def lcAlphaCh (c : Char) : Bool := 97 ≤ c.toNat ∧ c.toNat ≤ 122

/-- Characters acceptable in a clean path: anything but `?` and `#`. -/
def pathCharOk (c : Char) : Bool := !(c = '?' || c = '#')

/-- Characters acceptable in a clean query tail: anything but `#`. -/
def qCharOk (c : Char) : Bool := !(c = '#')

/-- A URL split `scheme ++ "://" ++ host ++ path ++ query` on which
    `UrlRef::from_str` locates every component at its true position: lowercase
    alphabetic scheme, lowercase host over `[a-z0-9._-]`, a path that is empty
    or `/`-headed and free of `?`/`#`, a query that is empty or `?`-headed and
    free of `#`, and a host whose first occurrence in the string is directly
    after `scheme ++ "://"`. -/
@[reducible]
def CleanUrl (s h p q : Str) : Prop :=
  s ≠ [] ∧ s.all lcAlphaCh = true ∧
  h ≠ [] ∧ h.all hostChar = true ∧
  (p = [] ∨ p.head? = some '/') ∧ p.all pathCharOk = true ∧
  (q = [] ∨ q.head? = some '?') ∧ (q.drop 1).all qCharOk = true ∧
  findSub h (s ++ str "://" ++ h) = some (s.length + 3)

/-- Whether a path ends in two slashes (the case on which one-slash trimming is
    not idempotent). -/
def endsTwoSlash (p : Str) : Bool :=
  match p.getLast?, p.dropLast.getLast? with
  | some '/', some '/' => true
  | _, _ => false

/-- Sortedness by key under the stable comparison of `sortPairs`. -/
def KeySorted (l : List (Str × Str)) : Prop :=
  l.Pairwise (fun a b => strLt b.1 a.1 = false)

/-- Test-harness helper mirroring `test_hierarchical_tree`
    (src/url_parser/mod.rs lines 407-437): parse and add, unwrapping. -/
def addStr (c : UrlCollection) (s : String) : UrlCollection :=
  match fromStr (str s) with
  | .ok r =>
    match c.add r with
    | .ok c2 => c2
    | .error _ => c
  | _ => c

/-- The collection of the four URLs of claim C8. -/
def c8Collection : UrlCollection :=
  addStr (addStr (addStr (addStr UrlCollection.new
    "https://example.com/blog/posts/rust.html")
    "https://example.com/blog/posts/python.html")
    "https://example.com/about")
    "https://api.example.com/v1/users"

end Spider

namespace Spider

/-- A concrete parsed `UrlRef` fixture (`https://a.com/x`). -/
def w10ref : UrlRef :=
  ⟨str "https://a.com/x", str "https", [], str "a.com", str "a.com", str "/x", [], [], 1⟩

/-- A collection already holding the normalized key of `w10ref`. -/
def w10coll : UrlCollection := ⟨[(w10ref.normalize, w10ref)], []⟩

/-- One unfolding step of the rotation trace. -/
theorem getNextTrace_succ (pm : ProxyManager) (n : Nat) :
    getNextTrace pm (n + 1) = pm.get_next.1 :: getNextTrace pm.get_next.2 n := rfl

end Spider

namespace Spider

/-! ## Helper lemmas: find, prefixes, slices -/

theorem findCh_append_of_not_mem (c : Char) (a b : Str) (h : c ∉ a) :
    findCh c (a ++ b) = (findCh c b).map (· + a.length) := by
  induction a with
  | nil => simp [Option.map_id']
  | cons x xs ih =>
    have hx : x ≠ c := by rintro rfl; exact h (List.mem_cons_self _ _)
    have hxs : c ∉ xs := fun hm => h (List.mem_cons_of_mem _ hm)
    simp only [List.cons_append, findCh, if_neg hx, List.append_eq]
    rw [ih hxs]
    cases findCh c b <;> simp [Nat.add_assoc]

theorem findCh_eq_none_of_not_mem (c : Char) (a : Str) (h : c ∉ a) :
    findCh c a = none := by
  have := findCh_append_of_not_mem c a [] h
  simpa using this

theorem findCh_cons_self (c : Char) (t : Str) : findCh c (c :: t) = some 0 := by
  simp [findCh]

theorem isPref_append (n r : Str) : isPref n (n ++ r) = true := by
  induction n with
  | nil => simp [isPref]
  | cons x xs ih => simp [isPref, ih]

theorem isPref_extend (n a b : Str) (h : isPref n a = true) :
    isPref n (a ++ b) = true := by
  induction n generalizing a with
  | nil => simp [isPref]
  | cons x xs ih =>
    cases a with
    | nil => simp [isPref] at h
    | cons y ys =>
      simp only [isPref] at h ⊢
      by_cases hxy : x = y
      · simp only [if_pos hxy] at h ⊢
        exact ih ys h
      · simp [if_neg hxy] at h

theorem isPref_append_eq_of_le (n a b : Str) (h : n.length ≤ a.length) :
    isPref n (a ++ b) = isPref n a := by
  induction n generalizing a with
  | nil => simp [isPref]
  | cons x xs ih =>
    cases a with
    | nil => simp at h
    | cons y ys =>
      simp only [List.cons_append, isPref]
      by_cases hxy : x = y
      · simp only [if_pos hxy]
        exact ih ys (by simpa using h)
      · simp [if_neg hxy]

theorem findSub_of_isPref (n u : Str) (h : isPref n u = true) :
    findSub n u = some 0 := by
  cases u with
  | nil => simp [findSub, h]
  | cons c t => simp [findSub, h]

theorem findSub_append (n a b : Str) (j : Nat) (hfind : findSub n a = some j)
    (hle : j + n.length ≤ a.length) : findSub n (a ++ b) = some j := by
  induction a generalizing j with
  | nil =>
    simp only [findSub] at hfind
    by_cases hp : isPref n [] = true
    · cases n with
      | nil =>
        simp only [if_pos hp] at hfind
        rw [List.nil_append]
        rw [findSub_of_isPref [] b (by simp [isPref])]
        exact hfind
      | cons c cs => simp [isPref] at hp
    · simp [hp] at hfind
  | cons y ys ih =>
    simp only [findSub, List.cons_append, List.append_eq] at hfind ⊢
    by_cases hp : isPref n (y :: ys) = true
    · simp only [if_pos hp] at hfind
      have hext := isPref_extend n (y :: ys) b hp
      rw [List.cons_append] at hext
      rw [if_pos hext]
      exact hfind
    · simp only [if_neg hp] at hfind
      obtain ⟨j', hj', rfl⟩ := Option.map_eq_some'.mp hfind
      have hlen : n.length ≤ (y :: ys).length := by
        simp only [List.length_cons] at hle ⊢
        omega
      have hiff := isPref_append_eq_of_le n (y :: ys) b hlen
      simp only [List.cons_append] at hiff
      rw [hiff, if_neg hp]
      have hys : findSub n (ys ++ b) = some j' := by
        apply ih j' hj'
        simp only [List.length_cons] at hle
        omega
      simp [hys]

theorem sliceStr_mid (a m r : Str) :
    sliceStr (a ++ m ++ r) a.length (a.length + m.length) = m := by
  unfold sliceStr
  rw [List.append_assoc, List.drop_left, Nat.add_sub_cancel_left, List.take_left]

theorem sliceStr_front (m r : Str) : sliceStr (m ++ r) 0 m.length = m := by
  have := sliceStr_mid [] m r
  simpa using this

theorem sliceStr_back (a m : Str) :
    sliceStr (a ++ m) a.length (a.length + m.length) = m := by
  have := sliceStr_mid a m []
  simpa using this

end Spider

namespace Spider

/-! ## Helper lemmas: character classes, case folding, scanning -/

theorem all_implies (P Q : Char → Bool) (s : Str) (himp : ∀ c, P c = true → Q c = true)
    (h : s.all P = true) : s.all Q = true := by
  rw [List.all_eq_true] at h ⊢
  exact fun c hc => himp c (h c hc)

theorem not_mem_of_all (P : Char → Bool) (s : Str) (d : Char)
    (hall : s.all P = true) (hd : P d = false) : d ∉ s := by
  intro hm
  have := List.all_eq_true.mp hall d hm
  rw [hd] at this
  exact Bool.false_ne_true this

theorem lcAlpha_toNat (c : Char) (h : lcAlphaCh c = true) :
    97 ≤ c.toNat ∧ c.toNat ≤ 122 := by
  simpa [lcAlphaCh, decide_eq_true_eq] using h

theorem isAlphaCh_of_lcAlpha (c : Char) (h : lcAlphaCh c = true) : isAlphaCh c = true := by
  have := lcAlpha_toNat c h
  simp [isAlphaCh, decide_eq_true_eq]
  omega

theorem schemeChar_of_lcAlpha (c : Char) (h : lcAlphaCh c = true) : schemeChar c = true := by
  simp [schemeChar, isAlphaCh_of_lcAlpha c h]

theorem lcAlpha_ne (c : Char) (h : lcAlphaCh c = true) :
    c ≠ ':' ∧ c ≠ '/' ∧ c ≠ '?' ∧ c ≠ '#' := by
  refine ⟨?_, ?_, ?_, ?_⟩ <;> rintro rfl <;> exact absurd h (by decide)

theorem hostChar_ne (c : Char) (h : hostChar c = true) :
    c ≠ ':' ∧ c ≠ '/' ∧ c ≠ '\\' ∧ c ≠ '?' ∧ c ≠ '#' ∧ c ≠ '@' := by
  refine ⟨?_, ?_, ?_, ?_, ?_, ?_⟩ <;> rintro rfl <;> exact absurd h (by decide)

theorem pathCharOk_ne (c : Char) (h : pathCharOk c = true) : c ≠ '?' ∧ c ≠ '#' := by
  refine ⟨?_, ?_⟩ <;> rintro rfl <;> exact absurd h (by decide)

theorem qCharOk_ne (c : Char) (h : qCharOk c = true) : c ≠ '#' := by
  rintro rfl; exact absurd h (by decide)

theorem hostChar_toNat_not_upper (c : Char) (h : hostChar c = true) :
    ¬ (65 ≤ c.toNat ∧ c.toNat ≤ 90) := by
  simp only [hostChar, isDigitCh, Bool.or_eq_true, decide_eq_true_eq] at h
  rcases h with (((h | h) | h) | h) | h
  · omega
  · omega
  · subst h; decide
  · subst h; decide
  · subst h; decide

theorem lowerChar_eq_self_of_lcAlpha (c : Char) (h : lcAlphaCh c = true) :
    lowerChar c = c := by
  have hn := lcAlpha_toNat c h
  unfold lowerChar
  rw [if_neg (by omega : ¬ (65 ≤ c.toNat ∧ c.toNat ≤ 90))]

theorem lowerChar_eq_self_of_hostChar (c : Char) (h : hostChar c = true) :
    lowerChar c = c := by
  unfold lowerChar
  rw [if_neg (hostChar_toNat_not_upper c h)]

theorem toLower_eq_self (s : Str) (h : ∀ c ∈ s, lowerChar c = c) : toLower s = s := by
  induction s with
  | nil => rfl
  | cons x xs ih =>
    unfold toLower at ih ⊢
    simp only [List.map_cons]
    rw [h x (List.mem_cons_self _ _), ih (fun c hc => h c (List.mem_cons_of_mem _ hc))]

theorem toLower_eq_self_of_lcAlpha (s : Str) (h : s.all lcAlphaCh = true) :
    toLower s = s :=
  toLower_eq_self s fun c hc =>
    lowerChar_eq_self_of_lcAlpha c (List.all_eq_true.mp h c hc)

theorem toLower_eq_self_of_hostChar (s : Str) (h : s.all hostChar = true) :
    toLower s = s :=
  toLower_eq_self s fun c hc =>
    lowerChar_eq_self_of_hostChar c (List.all_eq_true.mp h c hc)

theorem dropWhile_append_all (P : Char → Bool) (a b : Str) (h : a.all P = true) :
    (a ++ b).dropWhile P = b.dropWhile P := by
  induction a with
  | nil => rfl
  | cons x xs ih =>
    simp only [List.all_cons, Bool.and_eq_true] at h
    simp only [List.cons_append, List.dropWhile_cons, h.1, if_true]
    exact ih h.2

theorem dropWhile_eq_self (P : Char → Bool) (b : Str)
    (hb : ∀ c t, b = c :: t → P c = false) : b.dropWhile P = b := by
  cases b with
  | nil => rfl
  | cons c t => simp [List.dropWhile_cons, hb c t rfl]

theorem takeWhile_nil_of_stop (P : Char → Bool) (b : Str)
    (hb : ∀ c t, b = c :: t → P c = false) : b.takeWhile P = [] := by
  cases b with
  | nil => rfl
  | cons c t => simp [List.takeWhile_cons, hb c t rfl]

theorem takeWhile_append_stop (P : Char → Bool) (a b : Str) (ha : a.all P = true)
    (hb : ∀ c t, b = c :: t → P c = false) : (a ++ b).takeWhile P = a := by
  induction a with
  | nil => exact takeWhile_nil_of_stop P b hb
  | cons x xs ih =>
    simp only [List.all_cons, Bool.and_eq_true] at ha
    simp only [List.cons_append, List.takeWhile_cons, ha.1, if_true]
    rw [ih ha.2]

end Spider

namespace Spider

/-! ## The clean-parse lemmas -/

theorem modelUrlParse_clean (s h p q : Str) (hc : CleanUrl s h p q) :
    modelUrlParse (s ++ str "://" ++ h ++ p ++ q) = some (s, h) := by
  obtain ⟨hs_ne, hs_lc, hh_ne, hh_ok, hp_shape, hp_ok, hq_shape, hq_ok, hfind⟩ := hc
  have hu : s ++ str "://" ++ h ++ p ++ q = s ++ (':' :: '/' :: '/' :: (h ++ (p ++ q))) := by
    simp [str, List.append_assoc]
  have hcolon_s : ':' ∉ s :=
    not_mem_of_all lcAlphaCh s ':' hs_lc (by decide)
  have hfc : findCh ':' (s ++ str "://" ++ h ++ p ++ q) = some s.length := by
    rw [hu, findCh_append_of_not_mem ':' s _ hcolon_s, findCh_cons_self]
    simp
  have htake : (s ++ str "://" ++ h ++ p ++ q).take s.length = s := by
    rw [hu]
    exact List.take_left s _
  have hdrop : (s ++ str "://" ++ h ++ p ++ q).drop (s.length + 1)
      = '/' :: '/' :: (h ++ (p ++ q)) := by
    rw [hu]
    have hsplit : s ++ (':' :: '/' :: '/' :: (h ++ (p ++ q)))
        = (s ++ [':']) ++ ('/' :: '/' :: (h ++ (p ++ q))) := by
      simp [List.append_assoc]
    rw [hsplit]
    have hlen : (s ++ [':']).length = s.length + 1 := by simp
    rw [← hlen]
    exact List.drop_left _ _
  have halpha : isAlphaCh s.headI = true := by
    cases s with
    | nil => exact absurd rfl hs_ne
    | cons x xs =>
      simp only [List.all_cons, Bool.and_eq_true] at hs_lc
      exact isAlphaCh_of_lcAlpha x hs_lc.1
  have hschemeAll : s.all schemeChar = true :=
    all_implies lcAlphaCh schemeChar s schemeChar_of_lcAlpha hs_lc
  have hlow : toLower s = s := toLower_eq_self_of_lcAlpha s hs_lc
  have hlowh : toLower h = h := toLower_eq_self_of_hostChar h hh_ok
  have hhostHead : ∀ c t, h ++ (p ++ q) = c :: t → hostChar c = true := by
    intro c t hct
    cases h with
    | nil => exact absurd rfl hh_ne
    | cons x xs =>
      simp only [List.cons_append, List.cons.injEq] at hct
      rw [← hct.1]
      exact List.all_eq_true.mp hh_ok x (List.mem_cons_self _ _)
  have hpqHead : ∀ c t, p ++ q = c :: t → c = '/' ∨ c = '?' := by
    intro c t hct
    rcases hp_shape with hp0 | hphead
    · subst hp0
      simp only [List.nil_append] at hct
      rcases hq_shape with hq0 | hqhead
      · subst hq0; simp at hct
      · rw [hct] at hqhead
        simp only [List.head?_cons, Option.some.injEq] at hqhead
        exact Or.inr hqhead
    · cases p with
      | nil => simp at hphead
      | cons x xs =>
        simp only [List.cons_append, List.cons.injEq] at hct
        simp only [List.head?_cons, Option.some.injEq] at hphead
        exact Or.inl (hct.1 ▸ hphead)
  -- the authority computations shared by both scheme branches
  have hauthTrue : parseAuthority h true = some h := by
    unfold parseAuthority
    have hat : '@' ∉ h := not_mem_of_all hostChar h '@' hh_ok (by decide)
    have hrf : rfindCh '@' h = none := by
      unfold rfindCh
      rw [findCh_eq_none_of_not_mem '@' h.reverse (by simpa using hat)]
      rfl
    have hcol : findCh ':' h = none :=
      findCh_eq_none_of_not_mem ':' h (not_mem_of_all hostChar h ':' hh_ok (by decide))
    simp only [hrf, hcol]
    simp [hlowh, hh_ok]
  have hauthFalse : parseAuthority h false = some h := by
    unfold parseAuthority
    have hat : '@' ∉ h := not_mem_of_all hostChar h '@' hh_ok (by decide)
    have hrf : rfindCh '@' h = none := by
      unfold rfindCh
      rw [findCh_eq_none_of_not_mem '@' h.reverse (by simpa using hat)]
      rfl
    have hcol : findCh ':' h = none :=
      findCh_eq_none_of_not_mem ':' h (not_mem_of_all hostChar h ':' hh_ok (by decide))
    simp only [hrf, hcol]
    simp [hh_ok]
  unfold modelUrlParse
  rw [hfc]
  simp only [htake, hdrop, hlow]
  rw [if_pos ⟨hs_ne, halpha, hschemeAll⟩]
  by_cases hsp : specialScheme s = true
  · rw [if_pos hsp]
    have hslash : ('/' :: '/' :: (h ++ (p ++ q))).dropWhile isSlashCh = h ++ (p ++ q) := by
      simp only [List.dropWhile_cons]
      rw [if_pos (by decide : isSlashCh '/' = true),
          if_pos (by decide : isSlashCh '/' = true)]
      apply dropWhile_eq_self
      intro c t hct
      have hcc := hhostHead c t hct
      have hne := hostChar_ne c hcc
      simp [isSlashCh, hne.2.1, hne.2.2.1]
    rw [hslash]
    have hPh : h.all (fun c => ! authEndSp c) = true := by
      apply all_implies hostChar _ h _ hh_ok
      intro c hcc
      have hne := hostChar_ne c hcc
      simp [authEndSp, hne.2.1, hne.2.2.1, hne.2.2.2.1, hne.2.2.2.2.1]
    have htw : (h ++ (p ++ q)).takeWhile (fun c => ! authEndSp c) = h := by
      apply takeWhile_append_stop _ _ _ hPh
      intro c t hct
      rcases hpqHead c t hct with rfl | rfl
      · decide
      · decide
    rw [htw, hauthTrue]
    show (if h = [] ∧ s ≠ str "file" then none else some (s, h)) = some (s, h)
    rw [if_neg (fun hcon => hh_ne hcon.1)]
  · rw [if_neg hsp]
    have htk2 : ('/' :: '/' :: (h ++ (p ++ q))).take 2 = str "//" := rfl
    rw [htk2, if_pos rfl]
    have hPh : h.all (fun c => ! authEndNs c) = true := by
      apply all_implies hostChar _ h _ hh_ok
      intro c hcc
      have hne := hostChar_ne c hcc
      simp [authEndNs, hne.2.1, hne.2.2.2.1, hne.2.2.2.2.1]
    have htw : (('/' :: '/' :: (h ++ (p ++ q))).drop 2).takeWhile (fun c => ! authEndNs c)
        = h := by
      show (h ++ (p ++ q)).takeWhile (fun c => ! authEndNs c) = h
      apply takeWhile_append_stop _ _ _ hPh
      intro c t hct
      rcases hpqHead c t hct with rfl | rfl
      · decide
      · decide
    rw [htw, hauthFalse]

end Spider

namespace Spider

theorem fromStr_clean (s h p q : Str) (hc : CleanUrl s h p q) :
    fromStr (s ++ str "://" ++ h ++ p ++ q) =
      .ok ⟨s ++ str "://" ++ h ++ p ++ q, s, (parseDomain h).1, (parseDomain h).2, h, p, q, [],
           depthOf p⟩ := by
  have hmup := modelUrlParse_clean s h p q hc
  obtain ⟨hs_ne, hs_lc, hh_ne, hh_ok, hp_shape, hp_ok, hq_shape, hq_ok, hfind⟩ := hc
  set u := s ++ str "://" ++ h ++ p ++ q with hu_def
  have hassoc1 : u = s ++ (str "://" ++ (h ++ (p ++ q))) := by
    simp [hu_def, List.append_assoc]
  have hassoc2 : u = (s ++ str "://") ++ h ++ (p ++ q) := by
    simp [hu_def, List.append_assoc]
  have hassoc3 : u = (s ++ str "://" ++ h) ++ (p ++ q) := by
    simp [hu_def, List.append_assoc]
  have hassoc4 : u = (s ++ str "://" ++ h ++ p) ++ q := by
    simp [hu_def, List.append_assoc]
  have hlsep : (str "://").length = 3 := rfl
  have hlB2 : (s ++ str "://").length = s.length + 3 := by simp [hlsep]
  have hlB3 : (s ++ str "://" ++ h).length = s.length + 3 + h.length := by
    simp only [List.length_append, hlsep]
  have hlB4 : (s ++ str "://" ++ h ++ p).length = s.length + 3 + h.length + p.length := by
    simp only [List.length_append, hlsep]
  have hulen : u.length = s.length + 3 + h.length + p.length + q.length := by
    rw [hassoc4, List.length_append, hlB4]
  have hfsS : findSub s u = some 0 := by
    rw [hassoc1]
    exact findSub_of_isPref _ _ (isPref_append s _)
  have hslice0 : sliceStr u 0 (0 + s.length) = s := by
    rw [hassoc1]
    simpa using sliceStr_front s _
  have hfsH : findSub h u = some (s.length + 3) := by
    rw [hassoc3]
    apply findSub_append h _ (p ++ q) _ hfind
    rw [hlB3]
  have hsliceH : sliceStr u (s.length + 3) (s.length + 3 + h.length) = h := by
    rw [hassoc2, ← hlB2]
    exact sliceStr_mid (s ++ str "://") h (p ++ q)
  have hqm_s : '?' ∉ s := not_mem_of_all lcAlphaCh s '?' hs_lc (by decide)
  have hqm_h : '?' ∉ h := not_mem_of_all hostChar h '?' hh_ok (by decide)
  have hqm_p : '?' ∉ p := not_mem_of_all pathCharOk p '?' hp_ok (by decide)
  have hfm_s : '#' ∉ s := not_mem_of_all lcAlphaCh s '#' hs_lc (by decide)
  have hfm_h : '#' ∉ h := not_mem_of_all hostChar h '#' hh_ok (by decide)
  have hfm_p : '#' ∉ p := not_mem_of_all pathCharOk p '#' hp_ok (by decide)
  have hfm_q : '#' ∉ q := by
    rcases hq_shape with hq0 | hqhead
    · subst hq0; simp
    · cases q with
      | nil => simp
      | cons c t =>
        simp only [List.head?_cons, Option.some.injEq] at hqhead
        subst hqhead
        intro hm
        rcases List.mem_cons.mp hm with hm | hm
        · exact absurd hm (by decide)
        · exact not_mem_of_all qCharOk t '#' (by simpa using hq_ok) (by decide) hm
  have hnotB : '?' ∉ s ++ str "://" ++ h ++ p := by
    intro hm
    rcases List.mem_append.mp hm with hm | hm
    · rcases List.mem_append.mp hm with hm | hm
      · rcases List.mem_append.mp hm with hm | hm
        · exact hqm_s hm
        · exact absurd hm (by decide)
      · exact hqm_h hm
    · exact hqm_p hm
  have hnotBf : '#' ∉ s ++ str "://" ++ h ++ p := by
    intro hm
    rcases List.mem_append.mp hm with hm | hm
    · rcases List.mem_append.mp hm with hm | hm
      · rcases List.mem_append.mp hm with hm | hm
        · exact hfm_s hm
        · exact absurd hm (by decide)
      · exact hfm_h hm
    · exact hfm_p hm
  have hfrag : findCh '#' u = none := by
    rw [hassoc4, findCh_append_of_not_mem '#' _ q hnotBf,
        findCh_eq_none_of_not_mem '#' q hfm_q]
    rfl
  have hfq : findCh '?' u = (findCh '?' q).map (· + (s.length + 3 + h.length + p.length)) := by
    rw [hassoc4, findCh_append_of_not_mem '?' _ q hnotB, hlB4]
  -- open the definition
  unfold fromStr
  rw [hmup]
  simp only [hfsS, hfsH, hslice0, hsliceH, hfrag, hfq]
  rw [if_pos hs_ne, if_pos hh_ne]
  rcases hq_shape with hq0 | hqhead
  · -- empty query
    subst hq0
    simp only [findCh, Option.map_none', Option.getD_none, Option.getD_some, Nat.min_self]
    have hpse : ¬ s.length + 3 + h.length > u.length := by omega
    rw [if_neg hpse]
    have hslicep : sliceStr u (s.length + 3 + h.length) u.length = p := by
      have hassoc3' : u = s ++ str "://" ++ h ++ p := by
        simpa using hassoc3
      rw [hassoc3', List.length_append, hlB3]
      have hb := sliceStr_back (s ++ str "://" ++ h) p
      rw [hlB3] at hb
      exact hb
    rw [hslicep]
    simp
  · -- query headed by '?'
    obtain ⟨t, rfl⟩ : ∃ t, q = '?' :: t := by
      cases q with
      | nil => simp at hqhead
      | cons c t =>
        simp only [List.head?_cons, Option.some.injEq] at hqhead
        exact ⟨t, by rw [hqhead]⟩
    simp only [findCh_cons_self, Option.map_some', Option.getD_some, Option.getD_none,
      Nat.zero_add]
    have hmin : min (s.length + 3 + h.length + p.length) u.length
        = s.length + 3 + h.length + p.length := by
      apply Nat.min_eq_left
      rw [hulen]
      omega
    rw [hmin]
    have hpse : ¬ s.length + 3 + h.length > s.length + 3 + h.length + p.length := by omega
    rw [if_pos (by rw [hulen]; simp : s.length + 3 + h.length + p.length < u.length)]
    rw [if_neg hpse]
    have hslicep : sliceStr u (s.length + 3 + h.length)
        (s.length + 3 + h.length + p.length) = p := by
      have hb := sliceStr_mid (s ++ str "://" ++ h) p ('?' :: t)
      rw [hlB3] at hb
      rw [hu_def]
      exact hb
    have hsliceq : sliceStr u (s.length + 3 + h.length + p.length) u.length = '?' :: t := by
      have hb := sliceStr_back (s ++ str "://" ++ h ++ p) ('?' :: t)
      rw [hlB4] at hb
      rw [hu_def, List.length_append, hlB4]
      exact hb
    rw [hslicep, hsliceq]
    have hlt : ¬ u.length < u.length := by omega
    rw [if_neg hlt]

end Spider

namespace Spider

/-! ## Path normalization lemmas -/

theorem normPath_trailing (p : Str) (hp : p.getLast? ≠ some '/') :
    normPath (p ++ ['/']) = normPath p := by
  cases p with
  | nil => rfl
  | cons x xs =>
    unfold normPath
    have hne : x :: xs ≠ [] := by simp
    have hne2 : (x :: xs) ++ ['/'] ≠ [] := by simp
    rw [if_neg hne2, if_neg hne]
    have hlast : ((x :: xs) ++ ['/']).getLast? = some '/' := List.getLast?_concat _
    have hlen : ((x :: xs) ++ ['/']).length > 1 := by simp
    rw [if_pos ⟨hlen, hlast⟩, List.dropLast_concat]
    rw [if_neg (fun hcon => hp hcon.2)]

theorem normPath_ne_nil (p : Str) : normPath p ≠ [] := by
  unfold normPath
  by_cases hp : p = []
  · simp [hp, str]
  · rw [if_neg hp]
    by_cases hcond : p.length > 1 ∧ p.getLast? = some '/'
    · rw [if_pos hcond]
      intro hdl
      have := congrArg List.length hdl
      simp [List.length_dropLast] at this
      omega
    · rw [if_neg hcond]
      exact hp

theorem normPath_head (p : Str) (hp : p = [] ∨ p.head? = some '/') :
    (normPath p).head? = some '/' := by
  rcases hp with rfl | hhead
  · rfl
  · cases p with
    | nil => simp at hhead
    | cons x xs =>
      simp only [List.head?_cons, Option.some.injEq] at hhead
      subst hhead
      unfold normPath
      rw [if_neg (by simp : ('/' :: xs : Str) ≠ [])]
      by_cases hcond : ('/' :: xs : Str).length > 1 ∧ ('/' :: xs).getLast? = some '/'
      · rw [if_pos hcond]
        cases xs with
        | nil => simp at hcond
        | cons y ys => simp [List.dropLast]
      · rw [if_neg hcond]
        rfl

theorem normPath_chars (p : Str) (P : Char → Bool) (hP : p.all P = true)
    (hslash : P '/' = true) : (normPath p).all P = true := by
  unfold normPath
  by_cases hp : p = []
  · simp [hp, str, hslash]
  · rw [if_neg hp]
    by_cases hcond : p.length > 1 ∧ p.getLast? = some '/'
    · rw [if_pos hcond]
      rw [List.all_eq_true] at hP ⊢
      exact fun c hc => hP c (List.dropLast_subset p hc)
    · rw [if_neg hcond]
      exact hP

theorem normPath_idem (p : Str) (hp : endsTwoSlash p = false) :
    normPath (normPath p) = normPath p := by
  by_cases hp0 : p = []
  · subst hp0; rfl
  · by_cases hcond : p.length > 1 ∧ p.getLast? = some '/'
    · have h1 : normPath p = p.dropLast := by
        unfold normPath
        rw [if_neg hp0, if_pos hcond]
      rw [h1]
      have hdne : p.dropLast ≠ [] := by
        intro hdl
        have := congrArg List.length hdl
        simp [List.length_dropLast] at this
        omega
      have hd_last : p.dropLast.getLast? ≠ some '/' := by
        intro hcon
        have : endsTwoSlash p = true := by
          unfold endsTwoSlash
          rw [hcond.2, hcon]
          decide
        rw [this] at hp
        exact Bool.noConfusion hp
      unfold normPath
      rw [if_neg hdne]
      by_cases hlen2 : p.dropLast.length > 1
      · rw [if_neg (fun hcon => hd_last hcon.2)]
      · rw [if_neg (fun hcon => hlen2 hcon.1)]
    · have h1 : normPath p = p := by
        unfold normPath
        rw [if_neg hp0, if_neg hcond]
      rw [h1]
      unfold normPath
      rw [if_neg hp0, if_neg hcond]

/-! ## Lexicographic order lemmas -/

theorem strLt_asymm (a b : Str) (h : strLt a b = true) : strLt b a = false := by
  induction a generalizing b with
  | nil =>
    cases b with
    | nil => simp [strLt] at h
    | cons y ys => rfl
  | cons x xs ih =>
    cases b with
    | nil => simp [strLt] at h
    | cons y ys =>
      simp only [strLt] at h ⊢
      by_cases hxy : x = y
      · subst hxy
        rw [if_pos rfl] at h ⊢
        exact ih ys h
      · rw [if_neg hxy] at h
        rw [if_neg (fun hyx => hxy hyx.symm)]
        have hlt : x < y := of_decide_eq_true h
        exact decide_eq_false (not_lt_of_lt hlt)

theorem strLt_false_trans (a b c : Str) (h1 : strLt b a = false) (h2 : strLt c b = false) :
    strLt c a = false := by
  induction a generalizing b c with
  | nil =>
    cases c with
    | nil => rfl
    | cons z zs => rfl
  | cons x xs ih =>
    cases b with
    | nil => simp [strLt] at h1
    | cons y ys =>
      cases c with
      | nil => simp [strLt] at h2
      | cons z zs =>
        simp only [strLt] at h1 h2 ⊢
        by_cases hyx : y = x
        · subst hyx
          rw [if_pos rfl] at h1
          by_cases hzy : z = y
          · subst hzy
            rw [if_pos rfl] at h2 ⊢
            exact ih ys zs h1 h2
          · rw [if_neg hzy] at h2 ⊢
            exact h2
        · rw [if_neg hyx] at h1
          have hyx_le : ¬ y < x := of_decide_eq_false h1
          by_cases hzy : z = y
          · subst hzy
            rw [if_neg hyx]
            exact h1
          · rw [if_neg hzy] at h2
            have hzy_le : ¬ z < y := of_decide_eq_false h2
            by_cases hzx : z = x
            · subst hzx
              exfalso
              exact hyx (le_antisymm (not_lt.mp hzy_le) (not_lt.mp hyx_le))
            · rw [if_neg hzx]
              apply decide_eq_false
              intro hlt
              exact absurd (lt_of_lt_of_le hlt (not_lt.mp hyx_le)) hzy_le

theorem strLt_conn (a b : Str) (h1 : strLt a b = false) (h2 : strLt b a = false) : a = b := by
  induction a generalizing b with
  | nil =>
    cases b with
    | nil => rfl
    | cons y ys => simp [strLt] at h1
  | cons x xs ih =>
    cases b with
    | nil => simp [strLt] at h2
    | cons y ys =>
      simp only [strLt] at h1 h2
      by_cases hxy : x = y
      · subst hxy
        rw [if_pos rfl] at h1 h2
        rw [ih ys h1 h2]
      · rw [if_neg hxy] at h1
        rw [if_neg (fun hyx => hxy hyx.symm)] at h2
        exact absurd (le_antisymm (not_lt.mp (of_decide_eq_false h2))
          (not_lt.mp (of_decide_eq_false h1))) hxy

end Spider

namespace Spider

/-! ## Stable sort lemmas -/

theorem insertPair_perm (x : Str × Str) (l : List (Str × Str)) :
    (insertPair x l).Perm (x :: l) := by
  induction l with
  | nil => exact List.Perm.refl _
  | cons y ys ih =>
    unfold insertPair
    by_cases hlt : strLt y.1 x.1 = true
    · rw [if_pos hlt]
      exact (ih.cons y).trans (List.Perm.swap x y ys)
    · rw [if_neg hlt]

theorem sortPairs_perm (l : List (Str × Str)) : (sortPairs l).Perm l := by
  induction l with
  | nil => exact List.Perm.refl _
  | cons x xs ih =>
    unfold sortPairs
    exact (insertPair_perm x (sortPairs xs)).trans (ih.cons x)

theorem insertPair_sorted (x : Str × Str) (l : List (Str × Str)) (h : KeySorted l) :
    KeySorted (insertPair x l) := by
  induction l with
  | nil => simp [insertPair, KeySorted]
  | cons y ys ih =>
    unfold KeySorted at h ⊢
    rw [List.pairwise_cons] at h
    unfold insertPair
    by_cases hlt : strLt y.1 x.1 = true
    · rw [if_pos hlt]
      rw [List.pairwise_cons]
      constructor
      · intro z hz
        have hz' : z ∈ x :: ys := (insertPair_perm x ys).mem_iff.mp hz
        rcases List.mem_cons.mp hz' with rfl | hz''
        · exact strLt_asymm _ _ hlt
        · exact h.1 z hz''
      · exact ih h.2
    · rw [if_neg hlt]
      rw [List.pairwise_cons]
      constructor
      · intro z hz
        rcases List.mem_cons.mp hz with rfl | hz'
        · exact Bool.of_not_eq_true hlt
        · exact strLt_false_trans x.1 y.1 z.1 (Bool.of_not_eq_true hlt) (h.1 z hz')
      · rw [List.pairwise_cons]
        exact h

theorem sortPairs_sorted (l : List (Str × Str)) : KeySorted (sortPairs l) := by
  induction l with
  | nil => simp [sortPairs, KeySorted]
  | cons x xs ih => exact insertPair_sorted x (sortPairs xs) ih

theorem sortPairs_eq_self (l : List (Str × Str)) (h : KeySorted l) : sortPairs l = l := by
  induction l with
  | nil => rfl
  | cons x xs ih =>
    unfold KeySorted at h
    rw [List.pairwise_cons] at h
    unfold sortPairs
    rw [ih h.2]
    cases xs with
    | nil => rfl
    | cons y ys =>
      unfold insertPair
      rw [if_neg (by rw [h.1 y (List.mem_cons_self _ _)]; exact Bool.false_ne_true)]

theorem keySorted_unique (l1 l2 : List (Str × Str)) (hperm : l1.Perm l2)
    (hnd : (l1.map Prod.fst).Nodup) (h1 : KeySorted l1) (h2 : KeySorted l2) :
    l1 = l2 := by
  induction l1 generalizing l2 with
  | nil => exact (hperm.nil_eq).symm ▸ rfl
  | cons x xs ih =>
    cases l2 with
    | nil => exact absurd hperm.symm (by simp)
    | cons y ys =>
      unfold KeySorted at h1 h2
      rw [List.pairwise_cons] at h1 h2
      have hxy : x = y := by
        have hx_mem : x ∈ y :: ys := hperm.mem_iff.mp (List.mem_cons_self _ _)
        have hy_mem : y ∈ x :: xs := hperm.mem_iff.mpr (List.mem_cons_self _ _)
        rcases List.mem_cons.mp hx_mem with rfl | hx_tail
        · rfl
        rcases List.mem_cons.mp hy_mem with rfl | hy_tail
        · rfl
        have hkey : x.1 = y.1 :=
          strLt_conn x.1 y.1 (h2.1 x hx_tail) (h1.1 y hy_tail)
        exfalso
        have hnd2 : ((y :: ys).map Prod.fst).Nodup := (hperm.map Prod.fst).nodup_iff.mp hnd
        rw [List.map_cons, List.nodup_cons] at hnd2
        exact hnd2.1 (hkey ▸ List.mem_map_of_mem Prod.fst hx_tail)
      subst hxy
      have htail : xs.Perm ys := hperm.cons_inv
      rw [List.map_cons, List.nodup_cons] at hnd
      rw [ih ys htail hnd.2 h1.2 h2.2]

end Spider

namespace Spider

/-! ## Query split/join lemmas -/

theorem splitOnCh_cons (sep x : Char) (t : Str) :
    splitOnCh sep (x :: t) =
      (if x = sep then [] :: splitOnCh sep t
       else
        match splitOnCh sep t with
        | [] => [[x]]
        | p :: ps => (x :: p) :: ps) := rfl

theorem splitOnCh_ne_nil (c : Char) (s : Str) : splitOnCh c s ≠ [] := by
  cases s with
  | nil => simp [splitOnCh]
  | cons x xs =>
    unfold splitOnCh
    by_cases hx : x = c
    · simp [hx]
    · rw [if_neg hx]
      cases splitOnCh c xs <;> simp

theorem splitOnCh_no_sep (c : Char) (a : Str) (h : c ∉ a) : splitOnCh c a = [a] := by
  induction a with
  | nil => rfl
  | cons x xs ih =>
    have hx : x ≠ c := by rintro rfl; exact h (List.mem_cons_self _ _)
    have hxs : c ∉ xs := fun hm => h (List.mem_cons_of_mem _ hm)
    unfold splitOnCh
    rw [if_neg hx, ih hxs]

theorem splitOnCh_append_sep (c : Char) (a b : Str) (h : c ∉ a) :
    splitOnCh c (a ++ c :: b) = a :: splitOnCh c b := by
  induction a with
  | nil =>
    simp only [List.nil_append]
    rw [splitOnCh_cons, if_pos rfl]
  | cons x xs ih =>
    have hx : x ≠ c := by rintro rfl; exact h (List.mem_cons_self _ _)
    have hxs : c ∉ xs := fun hm => h (List.mem_cons_of_mem _ hm)
    simp only [List.cons_append]
    rw [splitOnCh_cons, if_neg hx, ih hxs]

theorem splitOnCh_singleton (c : Char) (s part : Str) (h : splitOnCh c s = [part]) :
    s = part := by
  induction s generalizing part with
  | nil =>
    simp only [splitOnCh] at h
    have hpart : part = [] := by simpa using h.symm
    exact hpart.symm
  | cons x xs ih =>
    unfold splitOnCh at h
    by_cases hx : x = c
    · rw [if_pos hx] at h
      have h2 : splitOnCh c xs = [] := by
        have := congrArg List.tail h
        simpa using this
      exact absurd h2 (splitOnCh_ne_nil c xs)
    · rw [if_neg hx] at h
      cases hsp : splitOnCh c xs with
      | nil => exact absurd hsp (splitOnCh_ne_nil c xs)
      | cons p ps =>
        rw [hsp] at h
        have hps : ps = [] := by
          have := congrArg List.tail h
          simpa using this
        have hpart : part = x :: p := by
          have := congrArg List.head? h
          simpa using this.symm
        have hxs : xs = p := ih p (by rw [hsp, hps])
        rw [hpart, hxs]

theorem mem_splitOnCh (c : Char) (s : Str) (part : Str) (h : part ∈ splitOnCh c s) :
    (∀ d ∈ part, d ∈ s) ∧ c ∉ part := by
  induction s generalizing part with
  | nil =>
    simp only [splitOnCh, List.mem_singleton] at h
    subst h
    simp
  | cons x xs ih =>
    unfold splitOnCh at h
    by_cases hx : x = c
    · rw [if_pos hx] at h
      rcases List.mem_cons.mp h with rfl | h'
      · simp
      · have := ih part h'
        exact ⟨fun d hd => List.mem_cons_of_mem _ (this.1 d hd), this.2⟩
    · rw [if_neg hx] at h
      cases hsp : splitOnCh c xs with
      | nil => exact absurd hsp (splitOnCh_ne_nil c xs)
      | cons p ps =>
        rw [hsp] at h
        rcases List.mem_cons.mp h with rfl | h'
        · have hp : p ∈ splitOnCh c xs := by rw [hsp]; exact List.mem_cons_self _ _
          have := ih p hp
          constructor
          · intro d hd
            rcases List.mem_cons.mp hd with rfl | hd'
            · exact List.mem_cons_self _ _
            · exact List.mem_cons_of_mem _ (this.1 d hd')
          · intro hm
            rcases List.mem_cons.mp hm with rfl | hm'
            · exact hx rfl
            · exact this.2 hm'
        · have hp : part ∈ splitOnCh c xs := by rw [hsp]; exact List.mem_cons_of_mem _ h'
          have := ih part hp
          exact ⟨fun d hd => List.mem_cons_of_mem _ (this.1 d hd), this.2⟩

theorem not_mem_of_findCh_none (c : Char) (s : Str) (h : findCh c s = none) : c ∉ s := by
  induction s with
  | nil => simp
  | cons x xs ih =>
    unfold findCh at h
    by_cases hx : x = c
    · rw [if_pos hx] at h; exact absurd h (by simp)
    · rw [if_neg hx] at h
      intro hm
      rcases List.mem_cons.mp hm with rfl | hm'
      · exact hx rfl
      · cases hfc : findCh c xs with
        | none => exact ih hfc hm'
        | some j => rw [hfc] at h; simp at h

theorem not_mem_take_of_findCh (c : Char) (s : Str) (i : Nat) (h : findCh c s = some i) :
    c ∉ s.take i := by
  induction s generalizing i with
  | nil => simp
  | cons x xs ih =>
    unfold findCh at h
    by_cases hx : x = c
    · rw [if_pos hx] at h
      have : i = 0 := by simpa using h.symm
      subst this
      simp
    · rw [if_neg hx] at h
      cases hfc : findCh c xs with
      | none => rw [hfc] at h; simp at h
      | some j =>
        rw [hfc] at h
        simp only [Option.map_some', Option.some.injEq] at h
        subst h
        rw [List.take_succ_cons]
        intro hm
        rcases List.mem_cons.mp hm with rfl | hm'
        · exact hx rfl
        · exact ih j hfc hm'

theorem parsePair_render (k v : Str) (hk : '=' ∉ k) : parsePair (renderPair (k, v)) = (k, v) := by
  unfold renderPair
  by_cases hv : v = []
  · subst hv
    rw [if_pos rfl]
    unfold parsePair
    rw [findCh_eq_none_of_not_mem '=' k hk]
  · rw [if_neg hv]
    unfold parsePair
    have hfc : findCh '=' (k ++ '=' :: v) = some k.length := by
      rw [findCh_append_of_not_mem '=' k _ hk, findCh_cons_self]
      simp
    rw [hfc]
    have htk : (k ++ '=' :: v).take k.length = k := List.take_left k _
    have hdp : (k ++ '=' :: v).drop (k.length + 1) = v := by
      have hshape : k ++ '=' :: v = (k ++ ['=']) ++ v := by simp
      have hlen : (k ++ ['=']).length = k.length + 1 := by simp
      rw [hshape, ← hlen]
      exact List.drop_left _ _
    show ((k ++ '=' :: v).take k.length, (k ++ '=' :: v).drop (k.length + 1)) = (k, v)
    rw [htk, hdp]

theorem renderPair_eq_nil (pr : Str × Str) (h : renderPair pr = []) : pr = ([], []) := by
  obtain ⟨k, v⟩ := pr
  unfold renderPair at h
  by_cases hv : v = []
  · rw [if_pos hv] at h
    simp only at h
    rw [h, hv]
  · rw [if_neg hv] at h
    simp only at h
    exact absurd h (by simp)

theorem joinParams_eq_nil (ps : List (Str × Str)) (hne : ps ≠ [])
    (h : joinParams ps = []) : ps = [([], [])] := by
  cases ps with
  | nil => exact absurd rfl hne
  | cons pr ps' =>
    cases ps' with
    | nil =>
      unfold joinParams at h
      rw [renderPair_eq_nil pr h]
    | cons pr2 ps'' =>
      unfold joinParams at h
      exact absurd h (by simp)

theorem joinParams_chars (ps : List (Str × Str)) (P : Char → Bool)
    (hP : ∀ pr ∈ ps, pr.1.all P = true ∧ pr.2.all P = true)
    (hamp : P '&' = true) (heq : P '=' = true) : (joinParams ps).all P = true := by
  induction ps with
  | nil => rfl
  | cons pr ps' ih =>
    have hrp : (renderPair pr).all P = true := by
      have hpr := hP pr (List.mem_cons_self _ _)
      unfold renderPair
      by_cases hv : pr.2 = []
      · rw [if_pos hv]; exact hpr.1
      · rw [if_neg hv]
        rw [List.all_append]
        rw [hpr.1]
        simp only [List.all_cons, heq, Bool.true_and]
        exact hpr.2
    cases ps' with
    | nil => exact hrp
    | cons pr2 ps'' =>
      show (renderPair pr ++ '&' :: joinParams (pr2 :: ps'')).all P = true
      rw [List.all_append, hrp]
      simp only [List.all_cons, hamp, Bool.true_and]
      exact ih (fun x hx => hP x (List.mem_cons_of_mem _ hx))

theorem joinParams_split (ps : List (Str × Str)) (hps : ps ≠ [])
    (h : ∀ pr ∈ ps, '&' ∉ renderPair pr) :
    splitOnCh '&' (joinParams ps) = ps.map renderPair := by
  induction ps with
  | nil => exact absurd rfl hps
  | cons pr ps' ih =>
    cases ps' with
    | nil =>
      show splitOnCh '&' (renderPair pr) = [renderPair pr]
      exact splitOnCh_no_sep '&' _ (h pr (List.mem_cons_self _ _))
    | cons pr2 ps'' =>
      show splitOnCh '&' (renderPair pr ++ '&' :: joinParams (pr2 :: ps''))
          = renderPair pr :: (pr2 :: ps'').map renderPair
      rw [splitOnCh_append_sep '&' _ _ (h pr (List.mem_cons_self _ _))]
      rw [ih (by simp) (fun x hx => h x (List.mem_cons_of_mem _ hx))]

end Spider

namespace Spider

/-! ## Normalization on clean URLs -/

theorem normalize_clean (s h p q : Str) (hc : CleanUrl s h p q) :
    normalizeUrl (s ++ str "://" ++ h ++ p ++ q)
      = some (s ++ str "://" ++ h ++ normPath p ++ normQuery q) := by
  unfold normalizeUrl
  rw [fromStr_clean s h p q hc]
  show some (UrlRef.normalize _) = _
  unfold UrlRef.normalize
  simp only []
  rw [toLower_eq_self_of_lcAlpha s hc.2.1, toLower_eq_self_of_hostChar h hc.2.2.2.1]

theorem qparams_props (q : Str) (kv : Str × Str) (hm : kv ∈ qparams q) :
    '&' ∉ kv.1 ∧ '&' ∉ kv.2 ∧ '=' ∉ kv.1 ∧
      (∀ d ∈ kv.1, d ∈ q.drop 1) ∧ (∀ d ∈ kv.2, d ∈ q.drop 1) := by
  unfold qparams at hm
  obtain ⟨part, hpart, rfl⟩ := List.mem_map.mp hm
  have hsp := mem_splitOnCh '&' (q.drop 1) part hpart
  cases hfc : findCh '=' part with
  | none =>
    have hkv : parsePair part = (part, []) := by unfold parsePair; rw [hfc]
    rw [hkv]
    exact ⟨hsp.2, by simp, not_mem_of_findCh_none '=' part hfc, hsp.1, by simp⟩
  | some i =>
    have hkv : parsePair part = (part.take i, part.drop (i + 1)) := by
      unfold parsePair; rw [hfc]
    rw [hkv]
    refine ⟨fun hm2 => hsp.2 (List.take_subset i part hm2),
            fun hm2 => hsp.2 (List.drop_subset _ part hm2),
            not_mem_take_of_findCh '=' part i hfc,
            fun d hd => hsp.1 d (List.take_subset i part hd),
            fun d hd => hsp.1 d (List.drop_subset _ part hd)⟩

theorem normQuery_shape (q : Str) : normQuery q = [] ∨ (normQuery q).head? = some '?' := by
  unfold normQuery
  by_cases h1 : q ≠ [] ∧ q.length > 1
  · rw [if_pos h1]
    by_cases h2 : sortPairs (qparams q) ≠ []
    · rw [if_pos h2]; right; rfl
    · rw [if_neg h2]; left; rfl
  · rw [if_neg h1]; left; rfl

theorem all_of_mem_subset (P : Char → Bool) (parent : Str) (sub : Str)
    (hsub : ∀ d ∈ sub, d ∈ parent) (hall : parent.all P = true) : sub.all P = true := by
  rw [List.all_eq_true] at hall ⊢
  exact fun d hd => hall d (hsub d hd)

theorem normQuery_chars (q : Str) (P : Char → Bool) (hP : (q.drop 1).all P = true)
    (hamp : P '&' = true) (heq : P '=' = true) :
    ((normQuery q).drop 1).all P = true := by
  unfold normQuery
  by_cases h1 : q ≠ [] ∧ q.length > 1
  · rw [if_pos h1]
    by_cases h2 : sortPairs (qparams q) ≠ []
    · rw [if_pos h2]
      show (joinParams (sortPairs (qparams q))).all P = true
      apply joinParams_chars _ P _ hamp heq
      intro pr hpr
      have hpr' : pr ∈ qparams q := (sortPairs_perm (qparams q)).mem_iff.mp hpr
      have hprops := qparams_props q pr hpr'
      exact ⟨all_of_mem_subset P _ _ hprops.2.2.2.1 hP,
             all_of_mem_subset P _ _ hprops.2.2.2.2 hP⟩
    · rw [if_neg h2]; rfl
  · rw [if_neg h1]; rfl

end Spider

namespace Spider

theorem findCh_some_zero (c : Char) (s : Str) (h : findCh c s = some 0) :
    ∃ t, s = c :: t := by
  cases s with
  | nil => simp [findCh] at h
  | cons d t =>
    unfold findCh at h
    by_cases hd : d = c
    · exact ⟨t, by rw [hd]⟩
    · rw [if_neg hd] at h
      cases hfc : findCh c t with
      | none => rw [hfc] at h; simp at h
      | some j => rw [hfc] at h; simp at h

theorem normQuery_perm (q1 q2 : Str) (hlen1 : q1.length > 1) (hlen2 : q2.length > 1)
    (hperm : (qparams q1).Perm (qparams q2))
    (hnd : ((qparams q1).map Prod.fst).Nodup) :
    normQuery q1 = normQuery q2 := by
  have hne1 : q1 ≠ [] := by intro hq; rw [hq] at hlen1; simp at hlen1
  have hne2 : q2 ≠ [] := by intro hq; rw [hq] at hlen2; simp at hlen2
  unfold normQuery
  have hsorted : sortPairs (qparams q1) = sortPairs (qparams q2) := by
    apply keySorted_unique
    · exact (sortPairs_perm _).trans (hperm.trans (sortPairs_perm _).symm)
    · exact ((sortPairs_perm (qparams q1)).map Prod.fst).nodup_iff.mpr hnd
    · exact sortPairs_sorted _
    · exact sortPairs_sorted _
  rw [if_pos (show q1 ≠ [] ∧ q1.length > 1 from ⟨hne1, hlen1⟩), hsorted,
      if_pos (show q2 ≠ [] ∧ q2.length > 1 from ⟨hne2, hlen2⟩)]

theorem normQuery_idem (q : Str) (hq : q.drop 1 ≠ ['=']) :
    normQuery (normQuery q) = normQuery q := by
  have hnil : normQuery [] = [] := by
    unfold normQuery
    rw [if_neg (by simp)]
  by_cases h1 : q ≠ [] ∧ q.length > 1
  case neg =>
    have hz : normQuery q = [] := by unfold normQuery; rw [if_neg h1]
    rw [hz, hnil]
  case pos =>
    by_cases h2 : sortPairs (qparams q) ≠ []
    case neg =>
      have hz : normQuery q = [] := by unfold normQuery; rw [if_pos h1, if_neg h2]
      rw [hz, hnil]
    case pos =>
      have hq' : normQuery q = '?' :: joinParams (sortPairs (qparams q)) := by
        unfold normQuery
        rw [if_pos h1, if_pos h2]
      have hprops : ∀ pr ∈ sortPairs (qparams q),
          '&' ∉ pr.1 ∧ '&' ∉ pr.2 ∧ '=' ∉ pr.1 := by
        intro pr hpr
        have hp := qparams_props q pr ((sortPairs_perm (qparams q)).mem_iff.mp hpr)
        exact ⟨hp.1, hp.2.1, hp.2.2.1⟩
      have hjoin_ne : joinParams (sortPairs (qparams q)) ≠ [] := by
        intro hj
        have hsingle : sortPairs (qparams q) = [([], [])] :=
          joinParams_eq_nil _ h2 hj
        have hps : qparams q = [([], [])] := by
          have hp1 : (qparams q).Perm [([], [])] := by
            rw [← hsingle]
            exact (sortPairs_perm (qparams q)).symm
          exact List.perm_singleton.mp hp1
        unfold qparams at hps
        cases hsp : splitOnCh '&' (q.drop 1) with
        | nil => exact absurd hsp (splitOnCh_ne_nil _ _)
        | cons part rest =>
          rw [hsp] at hps
          simp only [List.map_cons, List.cons.injEq] at hps
          have hrest : rest = [] := List.map_eq_nil_iff.mp hps.2
          have hpart_eq : q.drop 1 = part := by
            apply splitOnCh_singleton '&'
            rw [hsp, hrest]
          have hdroplen : (q.drop 1).length = q.length - 1 := by
            simp [List.length_drop]
          cases hfc : findCh '=' part with
          | none =>
            have hkv : parsePair part = (part, []) := by unfold parsePair; rw [hfc]
            rw [hkv] at hps
            have hpart_nil : part = [] := congrArg Prod.fst hps.1
            have hlen0 : (q.drop 1).length = 0 := by
              rw [hpart_eq, hpart_nil]
              rfl
            have hql := h1.2
            rw [List.length_drop] at hlen0
            omega
          | some i =>
            have hkv : parsePair part = (part.take i, part.drop (i + 1)) := by
              unfold parsePair; rw [hfc]
            rw [hkv] at hps
            have htk : part.take i = [] := congrArg Prod.fst hps.1
            have hdp : part.drop (i + 1) = [] := congrArg Prod.snd hps.1
            rcases List.take_eq_nil_iff.mp htk with hi0 | hpnil
            · subst hi0
              obtain ⟨t, rfl⟩ := findCh_some_zero '=' part hfc
              simp only [List.drop_succ_cons, List.drop_zero] at hdp
              subst hdp
              exact hq (by rw [hpart_eq])
            · rw [hpnil] at hfc
              simp [findCh] at hfc
      rw [hq']
      have hlen' : ('?' :: joinParams (sortPairs (qparams q))).length > 1 := by
        cases hj : joinParams (sortPairs (qparams q)) with
        | nil => exact absurd hj hjoin_ne
        | cons a b => simp
      unfold normQuery
      rw [if_pos ⟨by simp, hlen'⟩]
      have hqp : qparams ('?' :: joinParams (sortPairs (qparams q)))
          = sortPairs (qparams q) := by
        unfold qparams
        show ((splitOnCh '&' (joinParams (sortPairs (qparams q)))).map parsePair) = _
        rw [joinParams_split _ h2 ?hamp]
        case hamp =>
          intro pr hpr
          have hp := hprops pr hpr
          unfold renderPair
          by_cases hv : pr.2 = []
          · rw [if_pos hv]; exact hp.1
          · rw [if_neg hv]
            intro hm
            rcases List.mem_append.mp hm with hm | hm
            · exact hp.1 hm
            · rcases List.mem_cons.mp hm with heq' | hm'
              · exact absurd heq' (by decide)
              · exact hp.2.1 hm'
        rw [List.map_map]
        have hcongr : ∀ pr ∈ sortPairs (qparams q), (parsePair ∘ renderPair) pr = id pr := by
          intro pr hpr
          simp only [Function.comp_apply, id_eq]
          obtain ⟨k, v⟩ := pr
          exact parsePair_render k v (hprops (k, v) hpr).2.2
        rw [List.map_congr_left hcongr, List.map_id]
        exact rfl
      rw [hqp]
      rw [sortPairs_eq_self _ (sortPairs_sorted (qparams q))]
      rw [if_pos h2]

end Spider

namespace Spider

/-! ## Closure of cleanliness under normalization, and crawler helpers -/

theorem cleanUrl_normalized (s h p q : Str) (hc : CleanUrl s h p q) :
    CleanUrl s h (normPath p) (normQuery q) := by
  obtain ⟨hs_ne, hs_lc, hh_ne, hh_ok, hp_shape, hp_ok, hq_shape, hq_ok, hfind⟩ := hc
  refine ⟨hs_ne, hs_lc, hh_ne, hh_ok, ?_, ?_, ?_, ?_, hfind⟩
  · exact Or.inr (normPath_head p hp_shape)
  · exact normPath_chars p pathCharOk hp_ok (by decide)
  · exact normQuery_shape q
  · exact normQuery_chars q qCharOk hq_ok (by decide) (by decide)

theorem mem_cacheInsert_self (cch : Cache) (k : Str) : k ∈ cacheInsert cch k := by
  unfold cacheInsert
  by_cases hk : k ∈ cch
  · rw [if_pos hk]; exact hk
  · rw [if_neg hk]; simp

theorem mem_cacheInsert_of_mem (cch : Cache) (k k' : Str) (h : k ∈ cch) :
    k ∈ cacheInsert cch k' := by
  unfold cacheInsert
  by_cases hk : k' ∈ cch
  · rw [if_pos hk]; exact h
  · rw [if_neg hk]; exact List.mem_append_left _ h

theorem mem_cacheExtend_of_mem_init (cch : Cache) (ks : List Str) (k : Str) (h : k ∈ cch) :
    k ∈ cacheExtend cch ks := by
  induction ks generalizing cch with
  | nil => exact h
  | cons x xs ih => exact ih (cacheInsert cch x) (mem_cacheInsert_of_mem cch k x h)

theorem mem_cacheExtend (cch : Cache) (ks : List Str) (k : Str) (h : k ∈ ks) :
    k ∈ cacheExtend cch ks := by
  induction ks generalizing cch with
  | nil => simp at h
  | cons x xs ih =>
    rcases List.mem_cons.mp h with rfl | h'
    · exact mem_cacheExtend_of_mem_init _ xs k (mem_cacheInsert_self cch k)
    · exact ih (cacheInsert cch x) h'

theorem buildData_lookup_none (extract : Str → Str → Str) (html : Str)
    (sels : List (Str × Str)) (nm : Str) (h : nm ∉ sels.map Prod.fst) :
    assocLookup (buildData extract html sels) nm = none := by
  induction sels with
  | nil => rfl
  | cons pr rest ih =>
    obtain ⟨n, sel⟩ := pr
    simp only [List.map_cons, List.mem_cons] at h
    push_neg at h
    unfold buildData
    by_cases hv : extract html (finalSelector sel) ≠ []
    · rw [if_pos hv]
      unfold assocLookup
      rw [if_neg (fun hcon => h.1 hcon.symm)]
      exact ih h.2
    · rw [if_neg hv]
      exact ih h.2

theorem buildData_lookup (extract : Str → Str → Str) (html : Str)
    (sels : List (Str × Str)) (nm sel : Str) (hnd : (sels.map Prod.fst).Nodup)
    (hm : (nm, sel) ∈ sels) :
    assocLookup (buildData extract html sels) nm =
      (if extract html (finalSelector sel) = [] then none
       else some (extract html (finalSelector sel))) := by
  induction sels with
  | nil => simp at hm
  | cons pr rest ih =>
    obtain ⟨n, s'⟩ := pr
    simp only [List.map_cons, List.nodup_cons] at hnd
    rcases List.mem_cons.mp hm with heq | hmem
    · have h1 : nm = n := congrArg Prod.fst heq
      have h2 : sel = s' := congrArg Prod.snd heq
      unfold buildData
      rw [← h2]
      by_cases hv : extract html (finalSelector sel) ≠ []
      · rw [if_pos hv]
        unfold assocLookup
        rw [if_pos h1.symm, if_neg hv]
      · rw [if_neg hv]
        push_neg at hv
        rw [if_pos hv]
        apply buildData_lookup_none
        rw [h1]
        exact hnd.1
    · have hne : n ≠ nm := by
        rintro rfl
        exact hnd.1 (List.mem_map_of_mem Prod.fst hmem)
      unfold buildData
      by_cases hv : extract html (finalSelector s') ≠ []
      · rw [if_pos hv]
        unfold assocLookup
        rw [if_neg hne]
        exact ih hnd.2 hmem
      · rw [if_neg hv]
        exact ih hnd.2 hmem

end Spider

namespace Spider

/-! ## Claim theorems -/

/-- C1: `save_result` is an idempotent insert.  Starting from a table with no
row for `(crawl_id, url)`, the first call persists exactly one row carrying the
first call's data and returns success; a second call with the same pair is a
silent no-op that also returns success, and the first call's data remains — at
most one persisted result per canonical URL per crawl. -/
theorem C1_save_result_idempotent (t : ResultsTable) (c : Int) (u : Str)
    (d1 d2 : FieldMap) (h : hasRow t c u = false) :
    save_result t c u d1 = .ok (t ++ [ResultRow.mk c u d1]) ∧
    save_result (t ++ [ResultRow.mk c u d1]) c u d2 = .ok (t ++ [ResultRow.mk c u d1]) ∧
    (t ++ [ResultRow.mk c u d1]).filter (fun r => r.crawl_id = c ∧ r.url = u)
      = [ResultRow.mk c u d1] := by
  have hfilt : t.filter (fun r => decide (r.crawl_id = c ∧ r.url = u)) = [] := by
    rw [List.filter_eq_nil_iff]
    intro r hr
    intro hcon
    unfold hasRow at h
    rw [List.any_eq_false] at h
    exact absurd hcon (by simpa using h r hr)
  refine ⟨?_, ?_, ?_⟩
  · unfold save_result
    rw [h]
    rfl
  · unfold save_result
    have h2 : hasRow (t ++ [ResultRow.mk c u d1]) c u = true := by
      unfold hasRow
      rw [List.any_append]
      apply Bool.or_eq_true_iff.mpr
      right
      simp
    rw [h2]
    rfl
  · rw [List.filter_append, hfilt]
    simp

/-- C1 witness: the theorem applied at a concrete empty table. -/
theorem C1_witness :
    save_result [] 1 (str "https://a.com/x") [(str "f", str "v")]
        = .ok [⟨1, str "https://a.com/x", [(str "f", str "v")]⟩] ∧
    save_result [⟨1, str "https://a.com/x", [(str "f", str "v")]⟩] 1
        (str "https://a.com/x") []
        = .ok [⟨1, str "https://a.com/x", [(str "f", str "v")]⟩] ∧
    (([] : ResultsTable) ++ [ResultRow.mk 1 (str "https://a.com/x") [(str "f", str "v")]]).filter
        (fun r => r.crawl_id = 1 ∧ r.url = str "https://a.com/x")
      = [⟨1, str "https://a.com/x", [(str "f", str "v")]⟩] := by
  have h := C1_save_result_idempotent [] 1 (str "https://a.com/x")
    [(str "f", str "v")] [] (by decide)
  simpa using h

/-- C5: the proxy rotator returns `none` on an empty pool; on a non-empty pool
it returns `pool[cursor mod len]` and advances the cursor (wrapping at `2^64`);
over the pool `[p1, p2, p3]` six successive calls return exactly
`p1, p2, p3, p1, p2, p3`. -/
theorem C5_proxy_rotation (pm : ProxyManager) :
    (pm.proxies = [] → pm.get_next = (none, pm)) ∧
    (pm.proxies ≠ [] →
      pm.get_next = (some (pm.proxies.getD (pm.current % pm.proxies.length) []),
        ⟨pm.proxies, (pm.current + 1) % 2 ^ 64⟩)) ∧
    (∀ p1 p2 p3 : Str, pm = ProxyManager.new [p1, p2, p3] →
      getNextTrace pm 6 = [some p1, some p2, some p3, some p1, some p2, some p3]) := by
  refine ⟨?_, ?_, ?_⟩
  · intro hemp
    unfold ProxyManager.get_next
    rw [if_pos hemp]
  · intro hne
    unfold ProxyManager.get_next
    rw [if_neg hne]
  · intro p1 p2 p3 hpm
    subst hpm
    have hstep : ∀ cur : Nat, (ProxyManager.mk [p1, p2, p3] cur).get_next
        = (some ([p1, p2, p3].getD (cur % 3) []),
           ProxyManager.mk [p1, p2, p3] ((cur + 1) % 2 ^ 64)) := by
      intro cur
      unfold ProxyManager.get_next
      rw [if_neg (by simp : ¬ ([p1, p2, p3] : List Str) = [])]
      rfl
    show getNextTrace (ProxyManager.mk [p1, p2, p3] 0) 6 = _
    rw [show (6 : Nat) = 5 + 1 from rfl, getNextTrace_succ, hstep]
    rw [show (5 : Nat) = 4 + 1 from rfl, getNextTrace_succ]
    simp only [hstep]
    rw [show (4 : Nat) = 3 + 1 from rfl, getNextTrace_succ]
    simp only [hstep]
    rw [show (3 : Nat) = 2 + 1 from rfl, getNextTrace_succ]
    simp only [hstep]
    rw [show (2 : Nat) = 1 + 1 from rfl, getNextTrace_succ]
    simp only [hstep]
    rw [show (1 : Nat) = 0 + 1 from rfl, getNextTrace_succ]
    simp only [hstep]
    norm_num [getNextTrace, List.getD]

/-- C5 witness: the theorem applied at concrete pools. -/
theorem C5_witness :
    (ProxyManager.mk [] 0).get_next = (none, ProxyManager.mk [] 0) ∧
    (ProxyManager.mk [str "p1", str "p2"] 5).get_next
      = (some (str "p2"), ProxyManager.mk [str "p1", str "p2"] 6) ∧
    getNextTrace (ProxyManager.new [str "a", str "b", str "c"]) 6
      = [some (str "a"), some (str "b"), some (str "c"),
         some (str "a"), some (str "b"), some (str "c")] := by
  refine ⟨(C5_proxy_rotation (ProxyManager.mk [] 0)).1 rfl, ?_, ?_⟩
  · have h := (C5_proxy_rotation (ProxyManager.mk [str "p1", str "p2"] 5)).2.1 (by decide)
    simpa using h
  · exact (C5_proxy_rotation (ProxyManager.new [str "a", str "b", str "c"])).2.2
      (str "a") (str "b") (str "c") rfl

/-- C8: adding the four example URLs to an empty collection yields
`unique_count = 4`, exactly two host hierarchies, and an `example.com` root
with exactly the two direct children `blog` and `about`. -/
theorem C8_collection_counts :
    c8Collection.unique_count = 4 ∧
    c8Collection.hierarchies.length = 2 ∧
    (assocLookup c8Collection.hierarchies (str "example.com")).map
      (fun t => t.children.length) = some 2 ∧
    (assocLookup c8Collection.hierarchies (str "example.com")).map
      (fun t => t.children.map Prod.fst) = some [str "blog", str "about"] := by
  refine ⟨by decide, by decide, by decide, by decide⟩

/-- C9 counterexample: `normalize_url` is not total.  On the input
`https://eX.com/?ex.com` the lowercased host `ex.com` is first found inside the
query, so the path slice runs from index 22 to index 15 and Rust panics
(`crash`); `normalize_url` does not return a string. -/
theorem C9_counterexample :
    fromStr (str "https://eX.com/?ex.com") = .crash ∧
    normalizeUrl (str "https://eX.com/?ex.com") = none := by
  refine ⟨by decide, by decide⟩

/-- C9 (amended): for every input on which `from_str` does not panic,
`normalize_url` returns a string, and when parsing fails it returns the input
unchanged, so a malformed URL becomes its own canonical key. -/
theorem C9_total_amended (u : Str) (h : fromStr u ≠ .crash) :
    (∃ s, normalizeUrl u = some s) ∧ (fromStr u = .err → normalizeUrl u = some u) := by
  unfold normalizeUrl
  cases hf : fromStr u with
  | ok r => exact ⟨⟨r.normalize, rfl⟩, fun hc => FromStrResult.noConfusion hc⟩
  | err => exact ⟨⟨u, rfl⟩, fun _ => rfl⟩
  | crash => exact absurd hf h

/-- C9 witness: the amended theorem applied at a malformed input. -/
theorem C9_witness :
    (∃ s, normalizeUrl (str "not a url") = some s) ∧
    (fromStr (str "not a url") = .err →
      normalizeUrl (str "not a url") = some (str "not a url")) :=
  C9_total_amended (str "not a url") (by decide)

/-- C10: `UrlCollection::add` is idempotent up to normalization — when the
URL's normalized key is already present in `unique_urls`, `add` leaves the
collection (both `unique_urls` and `hierarchies`) completely unchanged and
still returns success. -/
theorem C10_add_idempotent (coll : UrlCollection) (u : UrlRef)
    (h : (assocLookup coll.unique_urls u.normalize).isSome = true) :
    coll.add u = .ok coll := by
  unfold UrlCollection.add
  rw [if_pos h]

/-- C10 witness: the theorem applied at a concrete collection. -/
theorem C10_witness : w10coll.add w10ref = .ok w10coll :=
  C10_add_idempotent w10coll w10ref (by decide)

end Spider

namespace Spider

/-- C3 counterexample: the event loop has no ParseError skip path.  For the
event URL `not a url`, which fails `UrlRef::from_str` (`.err`), the event is
NOT skipped: extraction runs, a result is persisted under the raw string as
key, the key enters the cache, and a status message is emitted — contradicting
"no extraction, no persistence, no cache insertion, no status emission". -/
theorem C3_counterexample :
    fromStr (str "not a url") = .err ∧
    processEvent 1 [(str "title", str "h1")] (fun _ _ => str "v") true
        ⟨[], [], []⟩ (str "not a url", str "<html>") =
      some ⟨[⟨1, str "not a url", [(str "title", str "v")]⟩],
            [str "not a url"], [str "not a url"]⟩ := by
  refine ⟨by decide, by decide⟩

/-- C3 (amended): in the orchestrator's event loop, a fetched event whose URL
fails canonicalization is not skipped — `normalize_url` returns the raw URL
unchanged, which becomes the canonical key; if that key is not cached the event
is processed in full (extraction, persistence under the raw key, cache
insertion, status emission), and the run continues with subsequent events. -/
theorem C3_parse_failure_amended (c : Int) (sels : List (Str × Str))
    (extract : Str → Str → Str) (hasSink : Bool) (st : CrawlState)
    (raw html : Str) (evs : List (Str × Str))
    (herr : fromStr raw = .err) (hnc : raw ∉ st.cache) :
    runEvents c sels extract hasSink st ((raw, html) :: evs)
      = runEvents c sels extract hasSink
          ⟨(if hasRow st.results c raw then st.results
            else st.results ++ [⟨c, raw, buildData extract html sels⟩]),
           cacheInsert st.cache raw,
           (if hasSink then st.emitted ++ [raw] else st.emitted)⟩ evs := by
  have hproc : processEvent c sels extract hasSink st (raw, html)
      = some ⟨(if hasRow st.results c raw then st.results
               else st.results ++ [⟨c, raw, buildData extract html sels⟩]),
              cacheInsert st.cache raw,
              (if hasSink then st.emitted ++ [raw] else st.emitted)⟩ := by
    unfold processEvent
    have hnorm : normalizeUrl raw = some raw := by
      unfold normalizeUrl
      rw [herr]
    rw [hnorm]
    have hic : is_cached st.cache raw = false := by
      unfold is_cached
      exact decide_eq_false hnc
    simp only [hic, Bool.false_eq_true, if_false]
    rfl
  unfold runEvents
  rw [List.foldl_cons]
  rw [show ((some st).bind fun s => processEvent c sels extract hasSink s (raw, html))
      = processEvent c sels extract hasSink st (raw, html) from rfl]
  rw [hproc]

/-- C3 witness: the amended theorem applied at a concrete malformed event. -/
theorem C3_witness :
    runEvents 1 [(str "title", str "h1")] (fun _ _ => str "v") true
        ⟨[], [], []⟩ [(str "not a url", str "<html>")]
      = runEvents 1 [(str "title", str "h1")] (fun _ _ => str "v") true
          ⟨(if hasRow [] 1 (str "not a url") then []
            else [] ++ [⟨1, str "not a url",
              buildData (fun _ _ => str "v") (str "<html>") [(str "title", str "h1")]⟩]),
           cacheInsert [] (str "not a url"),
           (if true = true then [] ++ [str "not a url"] else [])⟩ [] :=
  C3_parse_failure_amended 1 [(str "title", str "h1")] (fun _ _ => str "v") true
    ⟨[], [], []⟩ (str "not a url") (str "<html>") [] (by decide) (by decide)

/-- C6: on a resumed crawl whose dedup cache was seeded with the canonical URLs
of all persisted results, an event whose canonical key is among the seeded keys
is skipped before extraction (the state is unchanged for every extractor), so
no result is re-persisted and no status is re-emitted. -/
theorem C6_seeded_cache_skips (t : ResultsTable) (c : Int) (sels : List (Str × Str))
    (extract : Str → Str → Str) (hasSink : Bool) (em : List Str)
    (raw html k : Str) (hnorm : normalizeUrl raw = some k)
    (hmem : k ∈ get_visited_urls t c) :
    processEvent c sels extract hasSink ⟨t, seedCache t c, em⟩ (raw, html)
      = some ⟨t, seedCache t c, em⟩ := by
  unfold processEvent
  rw [hnorm]
  have hk : is_cached (seedCache t c) k = true := by
    unfold is_cached seedCache
    exact decide_eq_true (mem_cacheExtend [] _ k hmem)
  simp only [hk, if_true]

/-- C6 witness: the theorem applied at a concrete seeded state. -/
theorem C6_witness :
    processEvent 1 [] (fun _ _ => str "v") true
        ⟨[⟨1, str "k", []⟩], seedCache [⟨1, str "k", []⟩] 1, []⟩ (str "k", str "<html>")
      = some ⟨[⟨1, str "k", []⟩], seedCache [⟨1, str "k", []⟩] 1, []⟩ :=
  C6_seeded_cache_skips [⟨1, str "k", []⟩] 1 [] (fun _ _ => str "v") true []
    (str "k") (str "<html>") (str "k") (by decide) (by decide)

/-- C7: per configured (field name → selector) pair, a selector already
prefixed with `css:`, `xpath:` or `regex:` is passed to the extractor
unchanged, an unprefixed selector is passed with `css:` prepended, and a field
whose extraction returns no value is omitted from the persisted field map. -/
theorem C7_selector_fields (sels : List (Str × Str)) (extract : Str → Str → Str)
    (html nm sel : Str) (hnd : (sels.map Prod.fst).Nodup) (hm : (nm, sel) ∈ sels) :
    ((isPref (str "css:") sel = true ∨ isPref (str "xpath:") sel = true ∨
        isPref (str "regex:") sel = true) → finalSelector sel = sel) ∧
    (¬ (isPref (str "css:") sel = true ∨ isPref (str "xpath:") sel = true ∨
        isPref (str "regex:") sel = true) → finalSelector sel = str "css:" ++ sel) ∧
    assocLookup (buildData extract html sels) nm =
      (if extract html (finalSelector sel) = [] then none
       else some (extract html (finalSelector sel))) := by
  refine ⟨fun hp => ?_, fun hp => ?_,
    buildData_lookup extract html sels nm sel hnd hm⟩
  · unfold finalSelector
    rw [if_pos hp]
  · unfold finalSelector
    rw [if_neg hp]

/-- C7 witness: the theorem applied at concrete selectors. -/
theorem C7_witness :
    ((isPref (str "css:") (str "h1") = true ∨ isPref (str "xpath:") (str "h1") = true ∨
        isPref (str "regex:") (str "h1") = true) → finalSelector (str "h1") = str "h1") ∧
    (¬ (isPref (str "css:") (str "h1") = true ∨ isPref (str "xpath:") (str "h1") = true ∨
        isPref (str "regex:") (str "h1") = true) →
      finalSelector (str "h1") = str "css:" ++ str "h1") ∧
    assocLookup (buildData (fun _ _ => str "v") (str "<html>")
        [(str "a", str "h1")]) (str "a") =
      (if (fun _ _ => str "v") (str "<html>") (finalSelector (str "h1")) = [] then none
       else some ((fun _ _ => str "v") (str "<html>") (finalSelector (str "h1")))) :=
  C7_selector_fields [(str "a", str "h1")] (fun _ _ => str "v") (str "<html>")
    (str "a") (str "h1") (by decide) (by decide)

end Spider

namespace Spider

/-- C2 counterexample: normalization does not identify scheme-case variants or
duplicate-key query reorderings.  (1) `https://example.com/a` and
`HTTPS://example.com/a` differ only by the case of the scheme (same remainder,
and the schemes agree after lowercasing), yet normalize differently: `Url::parse`
lowercases the scheme, `from_str`'s `find` of `https` fails in the uppercase
original, and `normalize_url` returns the input verbatim.  (2) URLs differing
only by the order of two query parameters with the SAME key keep their original
value order under the stable key sort, so they also normalize differently. -/
theorem C2_counterexample :
    (str "https://example.com/a" = str "https" ++ str "://example.com/a") ∧
    (str "HTTPS://example.com/a" = str "HTTPS" ++ str "://example.com/a") ∧
    toLower (str "HTTPS") = str "https" ∧
    normalizeUrl (str "https://example.com/a")
      ≠ normalizeUrl (str "HTTPS://example.com/a") ∧
    (qparams (str "?a=1&a=2")).Perm (qparams (str "?a=2&a=1")) ∧
    normalizeUrl (str "https://a.com/p?a=1&a=2")
      ≠ normalizeUrl (str "https://a.com/p?a=2&a=1") := by
  refine ⟨by decide, by decide, by decide, by decide, by decide, by decide⟩

/-- C2 (amended): for clean URLs (components located at their true positions,
lowercase scheme and host — see `CleanUrl`), normalization identifies a pair
that differs only by one trailing slash on the path, or only by the order of
query parameters whose keys are pairwise distinct.  Scheme/host case variants
and duplicate-key reorderings are excluded (see the counterexample). -/
theorem C2_normalize_equiv_amended (s h p1 q1 p2 q2 : Str)
    (hc1 : CleanUrl s h p1 q1) (hc2 : CleanUrl s h p2 q2)
    (hp : p1 = p2 ∨ (p2 = p1 ++ ['/'] ∧ p1.getLast? ≠ some '/')
               ∨ (p1 = p2 ++ ['/'] ∧ p2.getLast? ≠ some '/'))
    (hq : q1 = q2 ∨ (q1.length > 1 ∧ q2.length > 1 ∧
            (qparams q1).Perm (qparams q2) ∧ ((qparams q1).map Prod.fst).Nodup)) :
    normalizeUrl (s ++ str "://" ++ h ++ p1 ++ q1)
      = normalizeUrl (s ++ str "://" ++ h ++ p2 ++ q2) := by
  rw [normalize_clean s h p1 q1 hc1, normalize_clean s h p2 q2 hc2]
  have hpath : normPath p1 = normPath p2 := by
    rcases hp with rfl | ⟨hp2, hne⟩ | ⟨hp1, hne⟩
    · rfl
    · rw [hp2, normPath_trailing p1 hne]
    · rw [hp1, normPath_trailing p2 hne]
  have hquery : normQuery q1 = normQuery q2 := by
    rcases hq with rfl | ⟨hl1, hl2, hperm, hnd⟩
    · rfl
    · exact normQuery_perm q1 q2 hl1 hl2 hperm hnd
  rw [hpath, hquery]

/-- C2 witness: the amended theorem applied at a trailing-slash pair and at a
distinct-key query reordering. -/
theorem C2_witness :
    normalizeUrl (str "https" ++ str "://" ++ str "a.com" ++ str "/x" ++ [])
      = normalizeUrl (str "https" ++ str "://" ++ str "a.com" ++ str "/x/" ++ []) ∧
    normalizeUrl (str "https" ++ str "://" ++ str "a.com" ++ str "/p" ++ str "?b=2&a=1")
      = normalizeUrl (str "https" ++ str "://" ++ str "a.com" ++ str "/p" ++ str "?a=1&b=2") :=
  ⟨C2_normalize_equiv_amended (str "https") (str "a.com") (str "/x") [] (str "/x/") []
    (by decide) (by decide)
    (Or.inr (Or.inl ⟨by decide, by decide⟩)) (Or.inl rfl),
   C2_normalize_equiv_amended (str "https") (str "a.com") (str "/p") (str "?b=2&a=1")
    (str "/p") (str "?a=1&b=2") (by decide) (by decide)
    (Or.inl rfl) (Or.inr ⟨by decide, by decide, by decide, by decide⟩)⟩

/-- C4 counterexample: `normalize_url` is not idempotent on every input on
which it succeeds.  Normalizing `https://a.com/x//` trims only one trailing
slash, giving `https://a.com/x/`; normalizing again gives `https://a.com/x`. -/
theorem C4_counterexample :
    normalizeUrl (str "https://a.com/x//") = some (str "https://a.com/x/") ∧
    normalizeUrl (str "https://a.com/x/") = some (str "https://a.com/x") ∧
    str "https://a.com/x/" ≠ str "https://a.com/x" := by
  refine ⟨by decide, by decide, by decide⟩

/-- C4 (amended): `normalize_url` is idempotent on every input whose parse
fails (it returns the input unchanged), and on every clean URL (see `CleanUrl`)
whose path does not end in a double slash and whose query is not exactly `?=`;
the excluded paths are the counterexample's shape. -/
theorem C4_normalize_idem_amended (u : Str)
    (hu : fromStr u = .err ∨ ∃ s hh p q, u = s ++ str "://" ++ hh ++ p ++ q ∧
      CleanUrl s hh p q ∧ endsTwoSlash p = false ∧ q ≠ str "?=") :
    ∀ n, normalizeUrl u = some n → normalizeUrl n = some n := by
  intro n hn
  rcases hu with herr | ⟨s, hh, p, q, hu_eq, hc, h2s, hqe⟩
  · have hid : normalizeUrl u = some u := by
      unfold normalizeUrl
      rw [herr]
    rw [hid] at hn
    obtain rfl : u = n := Option.some.inj hn
    exact hid
  · subst hu_eq
    rw [normalize_clean s hh p q hc] at hn
    obtain rfl : s ++ str "://" ++ hh ++ normPath p ++ normQuery q = n :=
      Option.some.inj hn
    rw [normalize_clean s hh (normPath p) (normQuery q) (cleanUrl_normalized s hh p q hc)]
    rw [normPath_idem p h2s]
    rw [normQuery_idem q ?hdq]
    case hdq =>
      rcases hc.2.2.2.2.2.2.1 with hq0 | hqhead
      · rw [hq0]
        simp
      · cases q with
        | nil => simp
        | cons c0 t =>
          simp only [List.head?_cons, Option.some.injEq] at hqhead
          subst hqhead
          simp only [List.drop_succ_cons, List.drop_zero]
          intro ht
          apply hqe
          rw [ht]
          rfl

/-- C4 witness: the amended theorem applied at a clean URL and its normal
form. -/
theorem C4_witness :
    normalizeUrl (str "https://a.com/x") = some (str "https://a.com/x") :=
  C4_normalize_idem_amended
    (str "https" ++ str "://" ++ str "a.com" ++ str "/x" ++ [])
    (Or.inr ⟨str "https", str "a.com", str "/x", [], rfl, by decide, by decide, by decide⟩)
    (str "https://a.com/x") (by decide)

end Spider
